import Mathlib

/-!
Verification development for the scarlet-planner course search and schedule
engine.  The definitions below are a shallow embedding of the Python sources
(`src/utils/parsing.py`, `src/schedule_builder.py`, `src/search.py`,
`src/utils/constants.py`, `src/models.py`).  Python exceptions are modelled by
`Option` (`none` = the call raises); Python `dict`s are modelled by insertion
ordered association lists; Python `set`s by `Finset`.
-/

namespace ScarletPlanner

/-! ## String primitives (Python `str` operations used by the parsers) -/

/-- The whitespace characters of Python `str.strip` / the regex class `\s`
(ASCII range, which is all the repository's data uses). -/
def isPySpace (c : Char) : Bool :=
  c = ' ' || c = '\t' || c = '\n' || c = '\x0d' || c = '\x0b' || c = '\x0c'

/-- ASCII uppercasing, as Python `str.upper` acts on the ASCII range. -/
def asciiUpper (c : Char) : Char :=
  if 'a' ≤ c ∧ c ≤ 'z' then Char.ofNat (c.toNat - 32) else c

/-- ASCII lowercasing, as Python `str.lower` acts on the ASCII range. -/
def asciiLower (c : Char) : Char :=
  if 'A' ≤ c ∧ c ≤ 'Z' then Char.ofNat (c.toNat + 32) else c

/-- Python `s.strip()`. -/
def pyStrip (l : List Char) : List Char :=
  ((l.dropWhile isPySpace).reverse.dropWhile isPySpace).reverse

/-- Does the list start with the given pattern? -/
def startsWithL : List Char → List Char → Bool
  | _, [] => true
  | [], _ :: _ => false
  | c :: cs, p :: ps => c = p && startsWithL cs ps

/-- Python `pat in s` substring test. -/
def containsL : List Char → List Char → Bool
  | [], pat => startsWithL [] pat
  | c :: cs, pat => startsWithL (c :: cs) pat || containsL cs pat

/-- Python `s.replace(ab, "")` for a two character pattern `ab`:
remove every occurrence, scanning left to right. -/
def removeAllPair (a b : Char) : List Char → List Char
  | [] => []
  | [c] => [c]
  | c :: d :: rest =>
    if c = a ∧ d = b then removeAllPair a b rest
    else c :: removeAllPair a b (d :: rest)

/-- Python `s.replace(ab, "", 1)` for a two character pattern `ab`:
remove the first occurrence only. -/
def removeFirstPair (a b : Char) : List Char → List Char
  | [] => []
  | [c] => [c]
  | c :: d :: rest =>
    if c = a ∧ d = b then rest
    else c :: removeFirstPair a b (d :: rest)

/-- Split at every separator character satisfying `p`
(Python `str.split(sep)` shape: `n` separators yield `n + 1` groups). -/
def splitOnPred (p : Char → Bool) : List Char → List (List Char)
  | [] => [[]]
  | c :: cs =>
    match splitOnPred p cs with
    | [] => [[]]
    | g :: gs => if p c then [] :: g :: gs else (c :: g) :: gs

/-- Python `s.split()` with no argument: split on whitespace runs,
dropping empty groups. -/
def pySplitWs (l : List Char) : List (List Char) :=
  (splitOnPred isPySpace l).filter (fun g => g ≠ [])

def isDigitChar (c : Char) : Bool := '0' ≤ c && c ≤ '9'

/-- Python `str.isdigit` on the ASCII range: nonempty and all digits. -/
def pyIsDigit (l : List Char) : Bool := !l.isEmpty && l.all isDigitChar

def digitsToNat (l : List Char) : Nat :=
  l.foldl (fun acc c => acc * 10 + (c.toNat - 48)) 0

/-- Python `int(s)`: surrounding whitespace stripped, one optional sign, then a
nonempty digit run; anything else raises `ValueError`, modelled as `none`.
(CPython's underscore digit grouping is not modelled; nothing in the
repository's data uses it.) -/
def pyInt (l : List Char) : Option Int :=
  match pyStrip l with
  | '-' :: ds => if pyIsDigit ds then some (-(digitsToNat ds : Int)) else none
  | '+' :: ds => if pyIsDigit ds then some (digitsToNat ds : Int) else none
  | ds => if pyIsDigit ds then some (digitsToNat ds : Int) else none

/-- Collapse every whitespace run to a single space
(the regex substitution `re.sub(r'\s+', ' ', -)`).  A leading `' '` of the
recursive result can only come from leading whitespace of the tail, so
prepending a space to it keeps one space per maximal run. -/
def collapseWs : List Char → List Char
  | [] => []
  | c :: cs =>
    let r := collapseWs cs
    if isPySpace c then
      match r with
      | ' ' :: ds => ' ' :: ds
      | _ => ' ' :: r
    else c :: r

/-- Lexicographic code-point comparison: Python `str.__lt__`. -/
def charListLt : List Char → List Char → Bool
  | [], [] => false
  | [], _ :: _ => true
  | _ :: _, [] => false
  | a :: as, b :: bs =>
    if a.toNat < b.toNat then true
    else if a.toNat = b.toNat then charListLt as bs
    else false

/-- Python `str.__lt__`. -/
def strLt (a b : String) : Bool := charListLt a.data b.data

/-- Python `str.__le__`. -/
def strLe (a b : String) : Bool := strLt a b || a = b

/-! ## `src/utils/parsing.py` -/

/-- `DAY_CODES` from `src/utils/parsing.py`. -/
def DAY_CODES : List (String × String) :=
  [("MO", "Monday"), ("TU", "Tuesday"), ("WE", "Wednesday"), ("TH", "Thursday"),
   ("FR", "Friday"), ("SA", "Saturday"), ("SU", "Sunday")]

/-- `DAY_ORDER` from `src/utils/parsing.py`. -/
def DAY_ORDER : List String :=
  ["Monday", "Tuesday", "Wednesday", "Thursday", "Friday", "Saturday", "Sunday"]

/-- `parse_time_to_minutes` from `src/utils/parsing.py`.
`none` models a raised `ValueError` (from `int(...)`) or `IndexError`
(from `parts[1].split()[0]` on an empty split). -/
def parse_time_to_minutes (time_str : String) : Option Int :=
  let t0 := (pyStrip time_str.data).map asciiUpper
  let is_pm := containsL t0 ['P', 'M']
  let is_am := containsL t0 ['A', 'M']
  let t := pyStrip (removeAllPair 'P' 'M' (removeAllPair 'A' 'M' t0))
  if containsL t [':'] then
    match splitOnPred (fun c => c = ':') t with
    | [] => none
    | p0 :: rest => do
      let h ← pyInt p0
      let p1 ← rest.head?
      let w ← (pySplitWs p1).head?
      let m ← pyInt w
      let h2 := if is_pm ∧ h ≠ 12 then h + 12 else if is_am ∧ h = 12 then 0 else h
      some (h2 * 60 + m)
  else if pyIsDigit t then
    if t.length = 4 then
      some ((digitsToNat (t.take 2) : Int) * 60 + (digitsToNat (t.drop 2) : Int))
    else
      some ((digitsToNat t : Int) * 60)
  else
    some 0

/-- `parse_days_to_codes` from `src/utils/parsing.py`. -/
def parse_days_to_codes (days_str : String) : List String :=
  let init : List String × List Char := ([], days_str.data.map asciiUpper)
  let scanned := [('T', 'U'), ('T', 'H'), ('S', 'A'), ('S', 'U'),
                  ('M', 'O'), ('W', 'E'), ('F', 'R')].foldl
    (fun acc p =>
      if containsL acc.2 [p.1, p.2] then
        (acc.1 ++ [String.mk [p.1, p.2]], removeFirstPair p.1 p.2 acc.2)
      else acc) init
  scanned.2.foldl
    (fun result c =>
      if c = 'M' ∧ "MO" ∉ result then result ++ ["M"]
      else if c = 'W' ∧ "WE" ∉ result then result ++ ["W"]
      else if c = 'F' ∧ "FR" ∉ result then result ++ ["F"]
      else result) scanned.1

/-- `parse_days_to_full_names` from `src/utils/parsing.py`. -/
def parse_days_to_full_names (days_str : String) : List String :=
  (parse_days_to_codes days_str).foldl
    (fun names code =>
      match (DAY_CODES.find? (fun p => p.1 = code)).map Prod.snd with
      | some n => names ++ [n]
      | none =>
        if code = "M" then names ++ ["Monday"]
        else if code = "W" then names ++ ["Wednesday"]
        else if code = "F" then names ++ ["Friday"]
        else names) []

/-- Python `set.add` on a list model of a set: an element already present is
not added again.  The list's element set is the Python set; every consumer
below depends only on that set. -/
def setAdd (l : List String) (x : String) : List String :=
  if x ∈ l then l else l ++ [x]

/-- `parse_days_to_set` from `src/utils/parsing.py` (the returned Python
`set` is modelled by a duplicate-free list). -/
def parse_days_to_set (days_str : String) : List String :=
  let init : List String × List Char := ([], days_str.data.map asciiUpper)
  let scanned := [('T', 'U'), ('T', 'H'), ('S', 'A'), ('S', 'U')].foldl
    (fun acc p =>
      if containsL acc.2 [p.1, p.2] then
        (setAdd acc.1 (String.mk [p.1, p.2]), removeAllPair p.1 p.2 acc.2)
      else acc) init
  scanned.2.foldl
    (fun result c =>
      if c ∈ ['M', 'T', 'W', 'F', 'S'] then setAdd result (String.mk [c]) else result)
    scanned.1

/-! ## Data model (`src/models.py`) -/

/-- `Meeting` from `src/models.py`. -/
structure Meeting where
  days : String
  start_time : String
  end_time : String
  location : String
  deriving DecidableEq, Repr

/-- `Course` from `src/models.py`.  The float-valued display field
`professor_rating` is omitted: it is carried, never computed with, and no
claim mentions it. -/
structure Course where
  id : String
  code : String
  title : String
  description : String := ""
  «section» : String
  professor : String
  term : String
  credits : Int
  hub_units : List String := []
  department : String
  college : String
  schedule : List Meeting := []
  status : String := ""
  enrollment_cap : Int := 0
  enrollment_total : Int := 0
  section_type : String := ""
  class_nbr : Int := 0
  deriving DecidableEq, Repr

/-- `Conflict` from `src/models.py` (produced by `CourseIndex`). -/
structure Conflict where
  course1_id : String
  course2_id : String
  course1_code : String
  course2_code : String
  overlap_day : String
  overlap_time : String
  deriving DecidableEq, Repr

/-- `RelatedSection` from `src/models.py` (minus `professor_rating`, see
`Course`). -/
structure RelatedSection where
  id : String
  «section» : String
  section_type : String
  professor : String
  schedule : List Meeting := []
  status : String := ""
  enrollment_cap : Int := 0
  enrollment_total : Int := 0
  deriving DecidableEq, Repr

/-- The `RelatedSection(...)` constructor calls in
`CourseIndex.group_sections`. -/
def RelatedSection.ofCourse (c : Course) : RelatedSection :=
  { id := c.id, «section» := c.«section», section_type := c.section_type,
    professor := c.professor, schedule := c.schedule, status := c.status,
    enrollment_cap := c.enrollment_cap, enrollment_total := c.enrollment_total }

/-- `GroupedCourse` from `src/models.py` (minus `professor_rating`, see
`Course`). -/
structure GroupedCourse where
  id : String
  code : String
  title : String
  description : String := ""
  «section» : String
  professor : String
  term : String
  credits : Int
  hub_units : List String := []
  department : String
  college : String
  schedule : List Meeting := []
  status : String := ""
  enrollment_cap : Int := 0
  enrollment_total : Int := 0
  section_type : String := ""
  class_nbr : Int := 0
  related_sections : List RelatedSection := []
  deriving DecidableEq, Repr

/-- `GroupedCourse.from_course` from `src/models.py`. -/
def GroupedCourse.from_course (c : Course) (related : List RelatedSection) : GroupedCourse :=
  { id := c.id, code := c.code, title := c.title, description := c.description,
    «section» := c.«section», professor := c.professor, term := c.term,
    credits := c.credits, hub_units := c.hub_units, department := c.department,
    college := c.college, schedule := c.schedule, status := c.status,
    enrollment_cap := c.enrollment_cap, enrollment_total := c.enrollment_total,
    section_type := c.section_type, class_nbr := c.class_nbr,
    related_sections := related }

/-! ## Schedule engine (`src/schedule_builder.py`) -/

/-- `ScheduleEvent` from `src/schedule_builder.py`. -/
structure ScheduleEvent where
  course_id : String
  course_code : String
  course_title : String
  «section» : String
  section_type : String
  professor : String
  day : String
  start_minutes : Int
  end_minutes : Int
  start_time : String
  end_time : String
  location : String
  color : Option String := none
  column : Nat := 0
  total_columns : Nat := 1
  deriving DecidableEq, Repr

/-- `ScheduleEvent.overlaps` from `src/schedule_builder.py`. -/
def ScheduleEvent.overlaps (self other : ScheduleEvent) : Bool :=
  if self.day ≠ other.day then false
  else decide (self.start_minutes < other.end_minutes ∧ other.start_minutes < self.end_minutes)

/-- `ScheduleConflict` from `src/schedule_builder.py`. -/
structure ScheduleConflict where
  event1 : ScheduleEvent
  event2 : ScheduleEvent
  day : String
  overlap_start : Int
  overlap_end : Int
  deriving DecidableEq, Repr

/-- `ScheduleConflict.overlap_duration`. -/
def ScheduleConflict.overlap_duration (c : ScheduleConflict) : Int :=
  c.overlap_end - c.overlap_start

/-- `ScheduleBuilder.COLORS`. -/
def COLORS : List String :=
  ["#CC0000", "#3B82F6", "#10B981", "#8B5CF6", "#F59E0B",
   "#EC4899", "#06B6D4", "#84CC16", "#F97316", "#6366F1"]

/-- `ScheduleBuilder` state: `courses` is a Python `dict[str, Course]`,
modelled as an insertion ordered association list. -/
structure ScheduleBuilder where
  courses : List (String × Course) := []
  color_index : Nat := 0
  deriving DecidableEq, Repr

def dictKeys (m : List (String × Course)) : List String := m.map Prod.fst

/-- CPython `d[k] = v`: an existing key is updated in place (keeping its
position), a new key is appended. -/
def dictInsert (m : List (String × Course)) (k : String) (v : Course) :
    List (String × Course) :=
  if k ∈ dictKeys m then m.map (fun p => if p.1 = k then (k, v) else p)
  else m ++ [(k, v)]

/-- Python `d.get(k)`. -/
def dictGet (m : List (String × Course)) (k : String) : Option Course :=
  (m.find? (fun p => p.1 = k)).map Prod.snd

/-- The per-meeting body of `ScheduleBuilder._course_to_events`:
skip empty or `"TBA"` day patterns, parse times (empty strings count as 0),
skip all-zero meetings, and emit one event per parsed day. -/
def meetingToEvents (course : Course) (color : String) (meeting : Meeting) :
    Option (List ScheduleEvent) :=
  if meeting.days = "" ∨ meeting.days.data.map asciiUpper = ['T', 'B', 'A'] then some []
  else
    match (if meeting.start_time = "" then some 0
           else parse_time_to_minutes meeting.start_time),
          (if meeting.end_time = "" then some 0
           else parse_time_to_minutes meeting.end_time) with
    | some startM, some endM =>
      if startM = 0 ∧ endM = 0 then some []
      else some ((parse_days_to_full_names meeting.days).map (fun day =>
        { course_id := course.id
          course_code := course.code
          course_title := course.title
          «section» := course.«section»
          section_type := course.section_type
          professor := course.professor
          day := day
          start_minutes := startM
          end_minutes := endM
          start_time := meeting.start_time
          end_time := meeting.end_time
          location := meeting.location
          color := some color }))
    | _, _ => none

/-- A Python `for` loop collecting `f`'s results, aborting at the first
raised exception (`none`). -/
def mapOption {α β : Type} (f : α → Option β) : List α → Option (List β)
  | [] => some []
  | a :: as =>
    match f a, mapOption f as with
    | some b, some bs => some (b :: bs)
    | _, _ => none

/-- `ScheduleBuilder._course_to_events`. -/
def courseToEvents (course : Course) (color : String) : Option (List ScheduleEvent) := do
  let lists ← mapOption (meetingToEvents course color) course.schedule
  some lists.flatten

/-- Stable insertion of `a` into a `le`-sorted list: `a` goes before the
first element not strictly below it, so equal keys keep their original
order. -/
def insertStable {α : Type} (le : α → α → Bool) (a : α) : List α → List α
  | [] => [a]
  | b :: bs => if le b a && !le a b then b :: insertStable le a bs else a :: b :: bs

/-- Python's stable `sorted(-, key=...)` / `list.sort(key=...)`.  A stable
sort's output is uniquely determined by a total-preorder comparator, so
stable insertion sort models CPython's timsort exactly. -/
def pySort {α : Type} (le : α → α → Bool) : List α → List α
  | [] => []
  | x :: xs => insertStable le x (pySort le xs)

/-- One step of the greedy column scan in `ScheduleBuilder._assign_columns`:
place the event in the first column whose tracked end time is ≤ its start,
else open a new column.  The state is (column end times, emitted events). -/
def assignStep : List Int × List ScheduleEvent → ScheduleEvent →
    List Int × List ScheduleEvent
  | (cols, out), e =>
    match cols.findIdx? (fun colEnd => colEnd ≤ e.start_minutes) with
    | some i => (cols.set i e.end_minutes, out ++ [{ e with column := i }])
    | none => (cols ++ [e.end_minutes], out ++ [{ e with column := cols.length }])

/-- The sort key `(start_minutes, end_minutes)` of `_assign_columns`,
as a total boolean order. -/
def eventLE (a b : ScheduleEvent) : Bool :=
  a.start_minutes < b.start_minutes ||
    (a.start_minutes = b.start_minutes && a.end_minutes ≤ b.end_minutes)

/-- `ScheduleBuilder._assign_columns`. -/
def assignColumns (events : List ScheduleEvent) : List ScheduleEvent :=
  let sortedEvents := pySort eventLE events
  let st := sortedEvents.foldl assignStep ([], [])
  let total := if st.1 = [] then 1 else st.1.length
  st.2.map (fun e => { e with total_columns := total })

/-- `ScheduleBuilder.get_events`: color every course from the rotating
palette, expand to events, group by weekday in `DAY_ORDER`, and assign
columns per day. -/
def getEvents (b : ScheduleBuilder) : Option (List ScheduleEvent) := do
  let colored := b.courses.enum.map (fun p =>
    (p.2.2, COLORS.getD ((b.color_index + p.1) % COLORS.length) ""))
  let eventLists ← mapOption (fun q => courseToEvents q.1 q.2) colored
  let all_events := eventLists.flatten
  let dayLists := (DAY_ORDER.map (fun d => all_events.filter (fun e => e.day = d))).filter
    (fun l => l ≠ [])
  some (dayLists.map assignColumns).flatten

/-- The `ScheduleConflict(...)` constructor call shared by
`_detect_conflicts_with` and `get_all_conflicts`. -/
def mkScheduleConflict (e1 e2 : ScheduleEvent) : ScheduleConflict :=
  { event1 := e1, event2 := e2, day := e1.day,
    overlap_start := max e1.start_minutes e2.start_minutes,
    overlap_end := min e1.end_minutes e2.end_minutes }

/-- The inner double loop of the schedule conflict scans: one conflict per
overlapping pair `(e1, e2)` with `e1` drawn from the first list. -/
def eventConflicts (evs1 evs2 : List ScheduleEvent) : List ScheduleConflict :=
  (evs1.map (fun e1 => evs2.filterMap (fun e2 =>
    if e1.overlaps e2 then some (mkScheduleConflict e1 e2) else none))).flatten

/-- The pairwise `i < j` scan of `ScheduleBuilder.get_all_conflicts` over the
per-course event lists. -/
def pairConflicts : List (List ScheduleEvent) → List ScheduleConflict
  | [] => []
  | evs1 :: rest =>
    (rest.map (fun evs2 => eventConflicts evs1 evs2)).flatten ++ pairConflicts rest

/-- `ScheduleBuilder.get_all_conflicts`. -/
def getAllConflicts (b : ScheduleBuilder) : Option (List ScheduleConflict) := do
  let evLists ← mapOption (fun c => courseToEvents c "temp") (b.courses.map Prod.snd)
  some (pairConflicts evLists)

/-- `ScheduleBuilder._detect_conflicts_with`. -/
def detectConflictsWith (b : ScheduleBuilder) (new_course : Course) :
    Option (List ScheduleConflict) :=
  match courseToEvents new_course "temp",
        mapOption (fun c => courseToEvents c "temp") (b.courses.map Prod.snd) with
  | some new_events, some evLists =>
    some ((evLists.map (fun ev => eventConflicts new_events ev)).flatten)
  | _, _ => none

/-- `ScheduleBuilder.add_course`: detect conflicts against the existing
courses, then insert.  A raised parse error (modelled `none`) aborts before
the insert. -/
def addCourse (b : ScheduleBuilder) (course : Course) :
    Option (List ScheduleConflict × ScheduleBuilder) := do
  let conflicts ← detectConflictsWith b course
  some (conflicts, { b with courses := dictInsert b.courses course.id course })

/-- `ScheduleBuilder.remove_course`. -/
def removeCourse (b : ScheduleBuilder) (course_id : String) : Bool × ScheduleBuilder :=
  if course_id ∈ dictKeys b.courses then
    (true, { b with courses := b.courses.filter (fun p => p.1 ≠ course_id) })
  else (false, b)

/-- `ScheduleBuilder.clear`. -/
def clearBuilder (_ : ScheduleBuilder) : ScheduleBuilder :=
  { courses := [], color_index := 0 }

/-- `ScheduleBuilder.get_course`. -/
def getCourse (b : ScheduleBuilder) (course_id : String) : Option Course :=
  dictGet b.courses course_id

/-- `ScheduleBuilder.course_count`. -/
def course_count (b : ScheduleBuilder) : Nat := b.courses.length

/-! ## Conflict detection of `CourseIndex` (`src/search.py`) -/

/-- `CourseIndex._days_overlap`: `None` when the day sets share nothing,
else the sorted common codes joined with `", "` (`parse_days_to_set` returns
duplicate-free lists, so the filter is exactly the set intersection). -/
def days_overlap (days1 days2 : String) : Option String :=
  let common := (parse_days_to_set days1).filter (fun d => d ∈ parse_days_to_set days2)
  if common = [] then none
  else some (String.intercalate ", " (pySort strLe common))

/-- `CourseIndex._times_overlap`; `none` models a raised parse error. -/
def times_overlap (m1 m2 : Meeting) : Option Bool := do
  let s1 ← parse_time_to_minutes m1.start_time
  let e1 ← parse_time_to_minutes m1.end_time
  let s2 ← parse_time_to_minutes m2.start_time
  let e2 ← parse_time_to_minutes m2.end_time
  some (decide (s1 < e2 ∧ s2 < e1))

/-- The meeting-pair scan of `CourseIndex._check_conflict` with its
first-match-wins early return; the time parse only runs when the day sets
overlap (Python `and` short-circuit). -/
def checkMeetingPairs (c1 c2 : Course) : List (Meeting × Meeting) → Option (Option Conflict)
  | [] => some none
  | (m1, m2) :: rest =>
    match days_overlap m1.days m2.days with
    | none => checkMeetingPairs c1 c2 rest
    | some d => do
      let t ← times_overlap m1 m2
      if t then
        some (some { course1_id := c1.id, course2_id := c2.id,
                     course1_code := c1.code, course2_code := c2.code,
                     overlap_day := d,
                     overlap_time := m1.start_time ++ "-" ++ m1.end_time })
      else checkMeetingPairs c1 c2 rest

/-- `CourseIndex._check_conflict`. -/
def check_conflict (c1 c2 : Course) : Option (Option Conflict) :=
  checkMeetingPairs c1 c2 (c1.schedule.flatMap (fun m1 => c2.schedule.map (fun m2 => (m1, m2))))

/-- `CourseIndex.detect_conflicts`: the `i < j` pairwise scan. -/
def detect_conflicts : List Course → Option (List Conflict)
  | [] => some []
  | c :: rest =>
    match mapOption (check_conflict c) rest, detect_conflicts rest with
    | some headRow, some tail => some (headRow.reduceOption ++ tail)
    | _, _ => none

/-! ## `BitmapIndex` (`src/search.py`), with `BitMap` modelled as `Finset ℕ` -/

/-- `defaultdict(BitMap)` update `d[k].add(i)`: extend the existing entry or
append a fresh singleton. -/
def bmAdd (l : List (String × Finset ℕ)) (k : String) (i : ℕ) : List (String × Finset ℕ) :=
  if k ∈ l.map Prod.fst then l.map (fun p => if p.1 = k then (p.1, insert i p.2) else p)
  else l ++ [(k, {i})]

/-- The per-field half of `BitmapIndex.build`: each course contributes its
ordinal to the bitmap of every value `f` extracts from it. -/
def buildFieldIndex (courses : List Course) (f : Course → List String) :
    List (String × Finset ℕ) :=
  courses.enum.foldl (fun acc p => (f p.2).foldl (fun a v => bmAdd a v p.1) acc) []

/-- `BitmapIndex` state. -/
structure BitmapIndex where
  indices : List (String × List (String × Finset ℕ))
  all_ids : Finset ℕ
  deriving DecidableEq

/-- `BitmapIndex.build`. -/
def BitmapIndex.build (courses : List Course) : BitmapIndex :=
  { all_ids := Finset.range courses.length
    indices :=
      [("subject", buildFieldIndex courses (fun c => [c.department])),
       ("term", buildFieldIndex courses (fun c => [c.term])),
       ("hub", buildFieldIndex courses (fun c => c.hub_units)),
       ("college", buildFieldIndex courses (fun c => [c.college])),
       ("status", buildFieldIndex courses (fun c => if c.status ≠ "" then [c.status] else []))] }

/-- Python `d.get(k)` on an association list. -/
def assocFind {α : Type} (l : List (String × α)) (k : String) : Option α :=
  (l.find? (fun p => p.1 = k)).map Prod.snd

/-- The `field_matches |= ...` accumulation of `BitmapIndex.filter`: a value
present in the field's map contributes its bitmap to the union, an absent
value contributes nothing. -/
def unionStep (fieldIdx : List (String × Finset ℕ)) (acc : Finset ℕ) (v : String) :
    Finset ℕ :=
  match assocFind fieldIdx v with
  | some bm => acc ∪ bm
  | none => acc

/-- One iteration of the `BitmapIndex.filter` loop: skip an empty value
list or an unknown field, union the per-value bitmaps, and intersect the
union into the running result unless that union is empty. -/
def bmFilterStep (idx : BitmapIndex) (result : Finset ℕ) (fv : String × List String) :
    Finset ℕ :=
  if fv.2 = [] then result
  else
    match assocFind idx.indices fv.1 with
    | none => result
    | some fieldIdx =>
      let field_matches := fv.2.foldl (unionStep fieldIdx) ∅
      if field_matches ≠ ∅ then result ∩ field_matches else result

/-- `BitmapIndex.filter`: OR (union) within a field, AND (intersection)
between fields starting from the full universe. -/
def bmFilter (idx : BitmapIndex) (filters : List (String × List String)) : Finset ℕ :=
  filters.foldl (bmFilterStep idx) idx.all_ids

/-! ## `TrigramIndex` (`src/search.py`)

The index state after a sequence of `add(id, text)` calls is represented by
the call list itself (`entries`); `trigram_to_ids` accumulates over every
call, while `id_to_text` keeps only the last text per id. -/

/-- `TrigramIndex._normalize`: lowercase, strip, collapse whitespace runs. -/
def normalizeText (s : String) : List Char :=
  collapseWs (pyStrip (s.data.map asciiLower))

/-- `TrigramIndex._extract_trigrams`: all length-3 shingles; a nonempty
string shorter than 3 characters contributes itself as its only shingle. -/
def extract_trigrams (l : List Char) : Finset (List Char) :=
  if l.length < 3 then (if l = [] then ∅ else {l})
  else ((List.range (l.length - 2)).map (fun i => (l.drop i).take 3)).toFinset

/-- The key set of `id_to_text` after the given `add` calls. -/
def trigramKeys (entries : List (ℕ × String)) : Finset ℕ :=
  (entries.map Prod.fst).toFinset

/-- `trigram_to_ids[t]` after the given `add` calls. -/
def postingsOf (entries : List (ℕ × String)) (t : List Char) : Finset ℕ :=
  ((entries.filter (fun e => t ∈ extract_trigrams (normalizeText e.2))).map Prod.fst).toFinset

/-- `match_counts[id]` in `TrigramIndex.get_candidates`: how many distinct
query shingles have `id` in their postings. -/
def matchCount (entries : List (ℕ × String)) (q : Finset (List Char)) (id : ℕ) : ℕ :=
  (q.filter (fun t => id ∈ postingsOf entries t)).card

/-- `TrigramIndex.get_candidates`.  Ids enter `match_counts` only by sharing
at least one shingle, hence the `1 ≤ matchCount` conjunct. -/
def get_candidates (entries : List (ℕ × String)) (query : String) (min_matches : ℕ) :
    Finset ℕ :=
  let q := extract_trigrams (normalizeText query)
  if q = ∅ then trigramKeys entries
  else (trigramKeys entries).filter
    (fun id => 1 ≤ matchCount entries q id ∧ min_matches ≤ matchCount entries q id)

/-- The stored (normalized) text of an id: the last `add` wins, as
`id_to_text[doc_id] = text` overwrites. -/
def storedText (entries : List (ℕ × String)) (id : ℕ) : List Char :=
  match (entries.reverse.find? (fun e => e.1 = id)).map Prod.snd with
  | some t => normalizeText t
  | none => []

/-- The candidate set exactly as claim C8's sentence describes it
(spec wording, for comparison with `get_candidates`): the indexed ids whose
stored text shares at least `min_matches` distinct shingles with the query,
all ids when the query yields no shingles. -/
def specCandidates (entries : List (ℕ × String)) (query : String) (min_matches : ℕ) :
    Finset ℕ :=
  let q := extract_trigrams (normalizeText query)
  if q = ∅ then trigramKeys entries
  else (trigramKeys entries).filter
    (fun id => min_matches ≤ (q ∩ extract_trigrams (storedText entries id)).card)

/-! ## Section grouping (`src/search.py`, `src/utils/constants.py`) -/

/-- `PRIMARY_SECTION_TYPES` from `src/utils/constants.py`. -/
def PRIMARY_SECTION_TYPES : List String :=
  ["Lecture", "IND", "DRS", "EXP", "MUO", "PLB", "THP", "OTH", "MUE", ""]

/-- `SECONDARY_SECTION_TYPES` from `src/utils/constants.py`. -/
def SECONDARY_SECTION_TYPES : List String := ["Discussion", "Laboratory"]

def isAsciiAlpha (c : Char) : Bool :=
  ('A' ≤ c && c ≤ 'Z') || ('a' ≤ c && c ≤ 'z')

/-- `CourseIndex._get_section_prefix`: the leading alphabetic run of a
section label, uppercased. -/
def sectionLetters (s : String) : String :=
  String.mk ((s.data.takeWhile isAsciiAlpha).map asciiUpper)

/-- `CourseIndex._section_sort_key`: letters before the first digit form the
prefix, all digit characters concatenate into the numeric suffix (0 when
absent). -/
def sectionSortKey (s : String) : String × Int :=
  if s = "" then ("", 0)
  else
    let pn := s.data.foldl (fun (acc : List Char × List Char) c =>
      if isAsciiAlpha c then (if acc.2 = [] then (acc.1 ++ [c], acc.2) else acc)
      else if isDigitChar c then (acc.1, acc.2 ++ [c])
      else acc) ([], [])
    (String.mk (pn.1.map asciiUpper), if pn.2 = [] then 0 else (digitsToNat pn.2 : Int))

/-- The sort key `(section_type, _section_sort_key(section))` used for
related sections. -/
def relKey (r : RelatedSection) : String × String × Int :=
  (r.section_type, (sectionSortKey r.«section»).1, (sectionSortKey r.«section»).2)

/-- Lexicographic ≤ on the related-section sort key (Python tuple order). -/
def keyLE (x y : String × String × Int) : Bool :=
  strLt x.1 y.1 || (x.1 = y.1 &&
    (strLt x.2.1 y.2.1 || (x.2.1 = y.2.1 && x.2.2 ≤ y.2.2)))

/-- `defaultdict(list)`-style append used for `by_code_term`. -/
def dictAppendCourse (m : List ((String × String) × List Course)) (k : String × String)
    (c : Course) : List ((String × String) × List Course) :=
  if k ∈ m.map Prod.fst then m.map (fun p => if p.1 = k then (p.1, p.2 ++ [c]) else p)
  else m ++ [(k, [c])]

/-- The `by_code_term` grouping of `group_sections` (insertion ordered). -/
def groupByCodeTerm (courses : List Course) : List ((String × String) × List Course) :=
  courses.foldl (fun acc c => dictAppendCourse acc (c.code, c.term) c) []

/-- `primary_to_related[k].append(r)` (every key is present by
construction). -/
def relatedDictAppend (m : List (String × List RelatedSection)) (k : String)
    (r : RelatedSection) : List (String × List RelatedSection) :=
  m.map (fun p => if p.1 = k then (p.1, p.2 ++ [r]) else p)

/-- `{p.id: [] for p in primaries}` (first occurrence keeps its position). -/
def initRelatedDict (primaries : List Course) : List (String × List RelatedSection) :=
  primaries.foldl (fun m p => if p.id ∈ m.map Prod.fst then m else m ++ [(p.id, [])]) []

/-- The `prefix_to_primary` map: the first primary seen with each nonempty
letter prefix. -/
def prefixToPrimary (primaries : List Course) : List (String × Course) :=
  primaries.foldl (fun m p =>
    let pre := sectionLetters p.«section»
    if pre ≠ "" ∧ pre ∉ m.map Prod.fst then m ++ [(pre, p)] else m) []

/-- The body of `CourseIndex.group_sections` for one `(code, term)`
partition: split into primary/secondary, promote the first secondary when no
primary exists, match secondaries to primaries by letter prefix, attach
every unmatched secondary to every primary, and emit one `GroupedCourse` per
primary with its related sections sorted by
`(section_type, section sort key)`. -/
def processGroup (group : List Course) : List GroupedCourse :=
  let primaries0 := group.filter (fun c => c.section_type ∈ PRIMARY_SECTION_TYPES)
  let secondaries0 := group.filter (fun c => c.section_type ∈ SECONDARY_SECTION_TYPES)
  let ps :=
    if primaries0 = [] ∧ secondaries0 ≠ [] then
      (secondaries0.take 1, secondaries0.drop 1)
    else (primaries0, secondaries0)
  let pre2prim := prefixToPrimary ps.1
  let step := ps.2.foldl
    (fun (acc : List (String × List RelatedSection) × List Course) sec =>
      match assocFind pre2prim (sectionLetters sec.«section») with
      | some mp => (relatedDictAppend acc.1 mp.id (RelatedSection.ofCourse sec), acc.2)
      | none => (acc.1, acc.2 ++ [sec])) (initRelatedDict ps.1, [])
  let withShared :=
    if step.2 ≠ [] ∧ ps.1 ≠ [] then
      step.2.foldl (fun m sec =>
        ps.1.foldl (fun m2 p => relatedDictAppend m2 p.id (RelatedSection.ofCourse sec)) m)
        step.1
    else step.1
  ps.1.map (fun p =>
    let related := pySort (fun a b => keyLE (relKey a) (relKey b))
      ((assocFind withShared p.id).getD [])
    GroupedCourse.from_course p related)

/-- `CourseIndex.group_sections`. -/
def group_sections (courses : List Course) : List GroupedCourse :=
  ((groupByCodeTerm courses).map (fun p => processGroup p.2)).flatten

/-- Loop invariant of the greedy column scan: every emitted event's column
is a real column; each column's tracked end time is the end of the last
event emitted into it; and a later event in the same column starts no
earlier than an earlier one ends. -/
def colInv (cols : List Int) (out : List ScheduleEvent) : Prop :=
  (∀ x ∈ out, x.column < cols.length) ∧
  (∀ i, i < cols.length → ∃ l1 w, out.filter (fun x => x.column = i) = l1 ++ [w] ∧
    cols[i]? = some w.end_minutes) ∧
  List.Pairwise (fun a b => a.column = b.column → a.end_minutes ≤ b.start_minutes) out

/-! ## Concrete example data used by witnesses and counterexamples -/

/-- 12:00–13:00 event (the `CS 111` line of the `_assign_columns` docstring). -/
def evC4a : ScheduleEvent :=
  { course_id := "CS111", course_code := "CS 111", course_title := "Intro CS",
    «section» := "A1", section_type := "Lecture", professor := "P1", day := "Monday",
    start_minutes := 720, end_minutes := 780, start_time := "12:00 PM",
    end_time := "1:00 PM", location := "R1" }

/-- 12:30–14:00 event. -/
def evC4b : ScheduleEvent :=
  { evC4a with course_id := "MA225", start_minutes := 750, end_minutes := 840 }

/-- 13:30–15:00 event. -/
def evC4c : ScheduleEvent :=
  { evC4a with course_id := "PH100", start_minutes := 810, end_minutes := 900 }

/-- Lecture section A1 of an `EK 381`-style partition. -/
def gsA1 : Course :=
  { id := "a1", code := "EK 381", title := "Prob", «section» := "A1", professor := "P",
    term := "Fall 2026", credits := 4, department := "EK", college := "ENG",
    section_type := "Lecture" }

/-- Lecture section B1. -/
def gsB1 : Course := { gsA1 with id := "b1", «section» := "B1" }

/-- Discussion section A2 (prefix `A` matches `A1`). -/
def gsA2 : Course := { gsA1 with id := "a2", «section» := "A2", section_type := "Discussion" }

/-- Discussion section D1 (prefix `D` matches no primary). -/
def gsD1 : Course := { gsA1 with id := "d1", «section» := "D1", section_type := "Discussion" }

/-- A section meeting MWF 10:00–11:00. -/
def cMWF1 : Course :=
  { id := "X", code := "TEST 101", title := "T1", «section» := "A1", professor := "P",
    term := "Fall", credits := 4, department := "CS", college := "CAS",
    schedule := [⟨"MWF", "10:00", "11:00", "R1"⟩], section_type := "Lecture" }

/-- A section meeting MWF 10:30–11:30. -/
def cMWF2 : Course :=
  { cMWF1 with id := "Y", title := "T2", schedule := [⟨"MWF", "10:30", "11:30", "R2"⟩] }

/-- A section meeting TuTh 10:00–11:00 (days disjoint from `cMWF1`). -/
def cTuTh : Course :=
  { cMWF1 with id := "Z", title := "T3", schedule := [⟨"TuTh", "10:00", "11:00", "R3"⟩] }

/-- A schedule holding `cMWF1` only. -/
def bX : ScheduleBuilder := { courses := [("X", cMWF1)] }

/-- A schedule holding the two overlapping MWF sections. -/
def bXY : ScheduleBuilder := { courses := [("X", cMWF1), ("Y", cMWF2)] }

/-- A schedule holding two day-disjoint sections. -/
def bXZ : ScheduleBuilder := { courses := [("X", cMWF1), ("Z", cTuTh)] }

/-- A CS course for bitmap-index examples. -/
def bmCS : Course :=
  { id := "c1", code := "CAS CS 111", title := "Intro", «section» := "A1", professor := "P",
    term := "Fall 2026", credits := 4, department := "CS", college := "CAS",
    hub_units := ["QR"], status := "Open" }

/-- An MA course for bitmap-index examples. -/
def bmMA : Course := { bmCS with id := "c2", department := "MA" }

/-- Trigram index contents for examples. -/
def trigEntries : List (ℕ × String) := [(0, "CS 111 Intro"), (1, "MA 225 Multi")]

/-- The concrete event list `get_events` produces on `bXY`. -/
def evsXY : List ScheduleEvent := (getEvents bXY).getD []

/-- The concrete conflict list `detect_conflicts` produces on the two
overlapping MWF sections. -/
def c2dcs : List Conflict := (detect_conflicts [cMWF1, cMWF2]).getD []

/-- The concrete conflict list `get_all_conflicts` produces on `bXY`. -/
def c2gcs : List ScheduleConflict := (getAllConflicts bXY).getD []

/-- The conflicts reported when adding the day-disjoint section `Z` to `bXY`. -/
def c2acs : List ScheduleConflict := (addCourse bXY cTuTh).elim [] Prod.fst

/-- The builder state after adding `Z` to `bXY`. -/
def c2b2 : ScheduleBuilder := (addCourse bXY cTuTh).elim {} Prod.snd

/-- The conflicts reported when re-adding the stored section `X` to `bX`. -/
def cfsX2 : List ScheduleConflict := (addCourse bX cMWF1).elim [] Prod.fst

/-- The builder state after re-adding `X` to `bX`. -/
def bX2 : ScheduleBuilder := (addCourse bX cMWF1).elim {} Prod.snd

/-! # Theorems -/

/-! ## Association-list dictionary lemmas -/

theorem dictKeys_dictInsert (m : List (String × Course)) (k : String) (v : Course) :
    dictKeys (dictInsert m k v) =
      if k ∈ dictKeys m then dictKeys m else dictKeys m ++ [k] := by
  unfold dictInsert
  split
  · unfold dictKeys
    rw [List.map_map]
    refine List.map_congr_left ?_
    intro p _
    by_cases hpk : p.1 = k
    · simp [hpk]
    · simp [hpk]
  · simp [dictKeys]

theorem length_dictInsert_mem (m : List (String × Course)) (k : String) (v : Course)
    (h : k ∈ dictKeys m) : (dictInsert m k v).length = m.length := by
  unfold dictInsert
  rw [if_pos h, List.length_map]

theorem dictGet_append_of_not_mem (m : List (String × Course)) (k : String) (v : Course)
    (h : k ∉ dictKeys m) : dictGet (m ++ [(k, v)]) k = some v := by
  induction m with
  | nil => simp [dictGet]
  | cons p rest ih =>
    have hpk : ¬p.1 = k := fun hp => h (by simp [dictKeys, hp])
    have hk : k ∉ dictKeys rest := fun hr => h (by simp [dictKeys] at hr ⊢; exact Or.inr hr)
    simpa [dictGet, List.find?_cons, hpk] using ih hk

theorem dictGet_subst_of_mem (m : List (String × Course)) (k : String) (v : Course)
    (h : k ∈ dictKeys m) :
    dictGet (m.map (fun p => if p.1 = k then (k, v) else p)) k = some v := by
  induction m with
  | nil => simp [dictKeys] at h
  | cons p rest ih =>
    by_cases hpk : p.1 = k
    · simp [dictGet, List.find?_cons, hpk]
    · have hk : k ∈ dictKeys rest := by
        simp [dictKeys] at h
        rcases h with h | h
        · exact absurd h.symm hpk
        · simpa [dictKeys] using h
      simpa [dictGet, List.find?_cons, hpk] using ih hk

theorem dictGet_dictInsert (m : List (String × Course)) (k : String) (v : Course) :
    dictGet (dictInsert m k v) k = some v := by
  unfold dictInsert
  split
  · exact dictGet_subst_of_mem m k v (by assumption)
  · exact dictGet_append_of_not_mem m k v (by assumption)

/-! ## C4: greedy column assignment on the three-event example -/

/-- C4: on the same-day events 12:00–13:00, 12:30–14:00, 13:30–15:00 the
greedy scan assigns columns 0, 1, 0 with `total_columns = 2` on every event;
and in general every event of a day is stamped with the same
`total_columns` value. -/
theorem c4_columns_example_and_constant_total :
    ((assignColumns [evC4a, evC4b, evC4c]).map (fun e => (e.column, e.total_columns)) =
      [(0, 2), (1, 2), (0, 2)]) ∧
    (∀ events : List ScheduleEvent, ∀ e1 ∈ assignColumns events, ∀ e2 ∈ assignColumns events,
      e1.total_columns = e2.total_columns) := by
  refine ⟨by decide, ?_⟩
  intro events e1 h1 e2 h2
  simp only [assignColumns, List.mem_map] at h1 h2
  obtain ⟨a, -, rfl⟩ := h1
  obtain ⟨b, -, rfl⟩ := h2
  rfl

/-- Witness for C4's universally quantified part at the concrete example. -/
theorem c4_columns_witness :
    ({ evC4a with column := 0, total_columns := 2 } : ScheduleEvent).total_columns =
      ({ evC4b with column := 1, total_columns := 2 } : ScheduleEvent).total_columns :=
  c4_columns_example_and_constant_total.2 [evC4a, evC4b, evC4c] _ (by decide) _ (by decide)

/-! ## C9: grouping of an A1/B1 + A2/D1 partition -/

/-- C9: a `(code, term)` partition with lectures A1, B1 and discussions A2
(prefix `A`) and D1 (prefix `D`, matching no primary) yields exactly the
groups headed by A1 and B1; A1 carries A2 and D1, B1 carries only D1. -/
theorem c9_group_sections_shared_discussion :
    (group_sections [gsA1, gsB1, gsA2, gsD1]).map
        (fun g => (g.id, g.related_sections.map (fun r => r.id))) =
      [("a1", ["a2", "d1"]), ("b1", ["d1"])] := by decide

/-! ## C10: one course per id in the schedule builder -/

/-- C10: the builder's course map holds at most one course per id:
`add_course` preserves key distinctness, re-adding a present id keeps
`course_count` and stores the new course under that id, and `remove_course`
and `clear` preserve distinctness as well. -/
theorem c10_one_course_per_id :
    (∀ b c cfs b2, addCourse b c = some (cfs, b2) →
      ((dictKeys b.courses).Nodup → (dictKeys b2.courses).Nodup) ∧
      (c.id ∈ dictKeys b.courses → course_count b2 = course_count b) ∧
      getCourse b2 c.id = some c) ∧
    (∀ b cid, (dictKeys b.courses).Nodup →
      (dictKeys ((removeCourse b cid).2.courses)).Nodup) ∧
    (∀ b, (clearBuilder b).courses = []) := by
  refine ⟨?_, ?_, fun b => rfl⟩
  · intro b c cfs b2 h
    have hb2 : b2.courses = dictInsert b.courses c.id c := by
      unfold addCourse at h
      cases hd : detectConflictsWith b c with
      | none => rw [hd] at h; simp at h
      | some v =>
        rw [hd] at h
        obtain ⟨-, h2⟩ := Prod.mk.injEq .. |>.mp (Option.some.inj h)
        rw [← h2]
    refine ⟨?_, ?_, ?_⟩
    · intro hnd
      rw [hb2, dictKeys_dictInsert]
      split
      · exact hnd
      · simpa [List.nodup_append] using ⟨hnd, by assumption⟩
    · intro hmem
      unfold course_count
      rw [hb2, length_dictInsert_mem _ _ _ hmem]
    · unfold getCourse
      rw [hb2]
      exact dictGet_dictInsert _ _ _
  · intro b cid hnd
    unfold removeCourse
    split
    · exact ((List.filter_sublist _).map Prod.fst).nodup hnd
    · exact hnd

/-- Witness for C10 at a concrete schedule: re-adding the stored course
keeps the count at 1 and replaces the entry. -/
theorem c10_witness :
    (dictKeys bX.courses).Nodup ∧
    addCourse bX cMWF1 = some (cfsX2, bX2) ∧
    course_count bX2 = course_count bX ∧ getCourse bX2 "X" = some cMWF1 := by
  have h : addCourse bX cMWF1 = some (cfsX2, bX2) := by decide
  obtain ⟨-, h2, h3⟩ := c10_one_course_per_id.1 bX cMWF1 cfsX2 bX2 h
  exact ⟨by decide, h, h2 (by decide), h3⟩

/-! ## C6 and C7: bitmap filter algebra -/

theorem unionStep_absent (fieldIdx : List (String × Finset ℕ)) (acc : Finset ℕ)
    (v : String) (h : assocFind fieldIdx v = none) : unionStep fieldIdx acc v = acc := by
  unfold unionStep
  rw [h]

theorem foldl_union_absent (fieldIdx : List (String × Finset ℕ)) (vs : List String)
    (h : ∀ v ∈ vs, assocFind fieldIdx v = none) (acc : Finset ℕ) :
    vs.foldl (unionStep fieldIdx) acc = acc := by
  induction vs generalizing acc with
  | nil => rfl
  | cons v vs ih =>
    rw [List.foldl_cons, unionStep_absent fieldIdx acc v (h v (List.mem_cons_self v vs))]
    exact ih (fun w hw => h w (List.mem_cons_of_mem _ hw)) acc

theorem bmFilterStep_absent (idx : BitmapIndex) (f : String) (vs : List String)
    (h : ∀ v ∈ vs, (assocFind idx.indices f).bind (fun fi => assocFind fi v) = none)
    (acc : Finset ℕ) : bmFilterStep idx acc (f, vs) = acc := by
  by_cases hvs : vs = []
  · simp [bmFilterStep, hvs]
  · unfold bmFilterStep
    simp only [hvs, if_neg, if_false]
    cases hfi : assocFind idx.indices f with
    | none => simp
    | some fieldIdx =>
      have habs : ∀ v ∈ vs, assocFind fieldIdx v = none := by
        intro v hv
        have := h v hv
        rw [hfi] at this
        simpa using this
      simp only [foldl_union_absent fieldIdx vs habs ∅]
      simp

/-- C6: a requested field all of whose requested values are absent from the
index is skipped — it does not constrain the result — and inside a field an
absent value does not eliminate the sections matched by the other requested
values. -/
theorem c6_absent_values_not_constraining :
    (∀ (idx : BitmapIndex) (pre post : List (String × List String)) (f : String)
        (vs : List String),
      (∀ v ∈ vs, (assocFind idx.indices f).bind (fun fi => assocFind fi v) = none) →
      bmFilter idx (pre ++ (f, vs) :: post) = bmFilter idx (pre ++ post)) ∧
    (∀ (idx : BitmapIndex) (pre post : List (String × List String)) (f bad : String)
        (vs1 vs2 : List String),
      ((assocFind idx.indices f).bind (fun fi => assocFind fi bad) = none) →
      bmFilter idx (pre ++ (f, vs1 ++ bad :: vs2) :: post) =
        bmFilter idx (pre ++ (f, vs1 ++ vs2) :: post)) := by
  constructor
  · intro idx pre post f vs h
    unfold bmFilter
    rw [List.foldl_append, List.foldl_append, List.foldl_cons]
    rw [bmFilterStep_absent idx f vs h]
  · intro idx pre post f bad vs1 vs2 h
    unfold bmFilter
    rw [List.foldl_append, List.foldl_append, List.foldl_cons, List.foldl_cons]
    congr 1
    by_cases hvs : vs1 ++ vs2 = []
    · obtain ⟨h1, h2⟩ := List.append_eq_nil.mp hvs
      subst h1; subst h2
      simp only [List.nil_append]
      rw [bmFilterStep_absent idx f [bad] (by simpa using h)]
      simp [bmFilterStep]
    · have hvs1 : ¬(vs1 ++ bad :: vs2 = []) := by simp
      unfold bmFilterStep
      simp only [hvs, hvs1, if_false]
      cases hfi : assocFind idx.indices f with
      | none => simp
      | some fieldIdx =>
        have hbad : assocFind fieldIdx bad = none := by
          have h2 := h; rw [hfi] at h2; simpa using h2
        have heq : ∀ a : Finset ℕ,
            (vs1 ++ bad :: vs2).foldl (unionStep fieldIdx) a =
              (vs1 ++ vs2).foldl (unionStep fieldIdx) a := by
          intro a
          rw [List.foldl_append, List.foldl_append, List.foldl_cons,
            unionStep_absent fieldIdx _ bad hbad]
        simp only [heq]

/-- Witness for C6: filtering the two-course index by the nonexistent
subject `"XX"` leaves the result unconstrained. -/
theorem c6_witness :
    (∀ v ∈ ["XX"], (assocFind (BitmapIndex.build [bmCS, bmMA]).indices "subject").bind
        (fun fi => assocFind fi v) = none) ∧
    bmFilter (BitmapIndex.build [bmCS, bmMA]) [("subject", ["XX"])] =
      bmFilter (BitmapIndex.build [bmCS, bmMA]) [] := by
  have h : ∀ v ∈ ["XX"], (assocFind (BitmapIndex.build [bmCS, bmMA]).indices "subject").bind
      (fun fi => assocFind fi v) = none := by decide
  refine ⟨h, ?_⟩
  have := c6_absent_values_not_constraining.1 (BitmapIndex.build [bmCS, bmMA]) [] []
    "subject" ["XX"] h
  simpa using this

theorem bmAdd_snd_nonempty (l : List (String × Finset ℕ)) (k : String) (i : ℕ)
    (h : ∀ p ∈ l, p.2.Nonempty) : ∀ p ∈ bmAdd l k i, p.2.Nonempty := by
  intro p hp
  unfold bmAdd at hp
  split at hp
  · rw [List.mem_map] at hp
    obtain ⟨q, hq, rfl⟩ := hp
    by_cases hqk : q.1 = k
    · simpa [hqk] using Finset.insert_nonempty i q.2
    · simpa [hqk] using h q hq
  · rcases List.mem_append.mp hp with hp | hp
    · exact h p hp
    · simp only [List.mem_singleton] at hp
      subst hp
      exact Finset.singleton_nonempty i

theorem foldl_bmAdd_nonempty (vs : List String) (i : ℕ)
    (l : List (String × Finset ℕ)) (h : ∀ p ∈ l, p.2.Nonempty) :
    ∀ p ∈ vs.foldl (fun a v => bmAdd a v i) l, p.2.Nonempty := by
  induction vs generalizing l with
  | nil => exact h
  | cons v vs ih => exact ih _ (bmAdd_snd_nonempty l v i h)

theorem buildFieldIndex_nonempty (courses : List Course) (f : Course → List String) :
    ∀ p ∈ buildFieldIndex courses f, p.2.Nonempty := by
  unfold buildFieldIndex
  generalize courses.enum = l
  suffices h : ∀ (init : List (String × Finset ℕ)), (∀ p ∈ init, p.2.Nonempty) →
      ∀ p ∈ l.foldl (fun acc q => (f q.2).foldl (fun a v => bmAdd a v q.1) acc) init,
        p.2.Nonempty by
    exact h [] (by simp)
  induction l with
  | nil => intro init h; exact h
  | cons q l ih =>
    intro init h
    exact ih _ (foldl_bmAdd_nonempty (f q.2) q.1 init h)

theorem build_field_entry_nonempty (courses : List Course) (f : String)
    (fieldIdx : List (String × Finset ℕ))
    (hf : assocFind (BitmapIndex.build courses).indices f = some fieldIdx) :
    ∀ p ∈ fieldIdx, p.2.Nonempty := by
  unfold assocFind at hf
  rw [Option.map_eq_some'] at hf
  obtain ⟨q, hq, rfl⟩ := hf
  have hmem := List.mem_of_find?_eq_some hq
  unfold BitmapIndex.build at hmem
  simp only [List.mem_cons, List.not_mem_nil, or_false] at hmem
  rcases hmem with h | h | h | h | h <;> subst h <;>
    simpa using buildFieldIndex_nonempty courses _

/-- For a key present in an association list, `assocFind` returns one of the
stored values. -/
theorem assocFind_of_mem_keys {α : Type} (l : List (String × α)) (k : String)
    (h : k ∈ l.map Prod.fst) :
    ∃ v, assocFind l k = some v ∧ ∃ p ∈ l, p.1 = k ∧ p.2 = v := by
  induction l with
  | nil => simp at h
  | cons p rest ih =>
    by_cases hpk : p.1 = k
    · exact ⟨p.2, by simp [assocFind, List.find?_cons, hpk], p,
        List.mem_cons_self p rest, hpk, rfl⟩
    · have hk : k ∈ rest.map Prod.fst := by
        rcases List.mem_map.mp h with ⟨q, hq, hqk⟩
        rcases List.mem_cons.mp hq with rfl | hq
        · exact absurd hqk hpk
        · exact List.mem_map.mpr ⟨q, hq, hqk⟩
      obtain ⟨v, hv, q, hq, hql, hqr⟩ := ih hk
      exact ⟨v, by simpa [assocFind, List.find?_cons, hpk] using hv,
        q, List.mem_cons_of_mem _ hq, hql, hqr⟩

/-- C7: on a built index, filtering a field by a two-value list returns the
union of the two single-value filters, for any two values actually present
in that field's index. -/
theorem c7_filter_value_list_is_union :
    ∀ (courses : List Course) (f X Y : String),
      X ∈ ((assocFind (BitmapIndex.build courses).indices f).getD []).map Prod.fst →
      Y ∈ ((assocFind (BitmapIndex.build courses).indices f).getD []).map Prod.fst →
      bmFilter (BitmapIndex.build courses) [(f, [X, Y])] =
        bmFilter (BitmapIndex.build courses) [(f, [X])] ∪
          bmFilter (BitmapIndex.build courses) [(f, [Y])] := by
  intro courses f X Y hX hY
  cases hfi : assocFind (BitmapIndex.build courses).indices f with
  | none => rw [hfi] at hX; simp at hX
  | some fieldIdx =>
    rw [hfi] at hX hY
    simp only [Option.getD_some] at hX hY
    obtain ⟨bmX, hfX, pX, hpX, -, hvX⟩ := assocFind_of_mem_keys fieldIdx X hX
    obtain ⟨bmY, hfY, pY, hpY, -, hvY⟩ := assocFind_of_mem_keys fieldIdx Y hY
    have hXne : bmX.Nonempty := hvX ▸ build_field_entry_nonempty courses f fieldIdx hfi pX hpX
    have hYne : bmY.Nonempty := hvY ▸ build_field_entry_nonempty courses f fieldIdx hfi pY hpY
    have hXe : bmX ≠ ∅ := Finset.nonempty_iff_ne_empty.mp hXne
    have hYe : bmY ≠ ∅ := Finset.nonempty_iff_ne_empty.mp hYne
    have hXYe : bmX ∪ bmY ≠ ∅ := by
      rw [← Finset.nonempty_iff_ne_empty]
      exact hXne.mono Finset.subset_union_left
    unfold bmFilter
    simp only [List.foldl_cons, List.foldl_nil]
    unfold bmFilterStep unionStep
    simp only [hfi, hfX, hfY]
    simp [hfX, hfY, hXe, hYe, hXYe, Finset.empty_union, Finset.inter_union_distrib_left]

/-- Witness for C7 on the two-course index with subjects CS and MA. -/
theorem c7_witness :
    ("CS" ∈ ((assocFind (BitmapIndex.build [bmCS, bmMA]).indices "subject").getD
        []).map Prod.fst) ∧
    ("MA" ∈ ((assocFind (BitmapIndex.build [bmCS, bmMA]).indices "subject").getD
        []).map Prod.fst) ∧
    bmFilter (BitmapIndex.build [bmCS, bmMA]) [("subject", ["CS", "MA"])] =
      bmFilter (BitmapIndex.build [bmCS, bmMA]) [("subject", ["CS"])] ∪
        bmFilter (BitmapIndex.build [bmCS, bmMA]) [("subject", ["MA"])] := by
  refine ⟨by decide, by decide, ?_⟩
  exact c7_filter_value_list_is_union [bmCS, bmMA] "subject" "CS" "MA" (by decide) (by decide)

/-! ## Character and containment lemmas -/

theorem char_toNat_ofNat {n : ℕ} (hv : n.isValidChar) : (Char.ofNat n).toNat = n := by
  unfold Char.ofNat
  rw [dif_pos hv]
  rfl

theorem asciiUpper_eq_colon {c : Char} (h : asciiUpper c = ':') : c = ':' := by
  unfold asciiUpper at h
  split at h
  · rename_i hr
    exfalso
    have h1 : 97 ≤ c.toNat := by simpa [Char.toNat] using Char.le_def.mp hr.1
    have h2 : c.toNat ≤ 122 := by simpa [Char.toNat] using Char.le_def.mp hr.2
    have hv : Nat.isValidChar (c.toNat - 32) := Or.inl (by omega)
    have h3 := congrArg Char.toNat h
    rw [char_toNat_ofNat hv] at h3
    have h4 : c.toNat - 32 = 58 := by simpa using h3
    omega
  · exact h

theorem isDigitChar_asciiUpper {c : Char} (h : isDigitChar (asciiUpper c) = true) :
    isDigitChar c = true := by
  unfold asciiUpper at h
  split at h
  · rename_i hr
    exfalso
    have h1 : 97 ≤ c.toNat := by simpa [Char.toNat] using Char.le_def.mp hr.1
    have h2 : c.toNat ≤ 122 := by simpa [Char.toNat] using Char.le_def.mp hr.2
    have hv : Nat.isValidChar (c.toNat - 32) := Or.inl (by omega)
    unfold isDigitChar at h
    rw [Bool.and_eq_true] at h
    obtain ⟨ha, hb⟩ := h
    have ha2 : 48 ≤ (Char.ofNat (c.toNat - 32)).toNat := by
      simpa [Char.toNat] using Char.le_def.mp (of_decide_eq_true ha)
    rw [char_toNat_ofNat hv] at ha2
    have hb2 : (Char.ofNat (c.toNat - 32)).toNat ≤ 57 := by
      simpa [Char.toNat] using Char.le_def.mp (of_decide_eq_true hb)
    rw [char_toNat_ofNat hv] at hb2
    omega
  · exact h

theorem startsWithL_head_mem : ∀ {l : List Char} {a : Char} {pat : List Char},
    startsWithL l (a :: pat) = true → a ∈ l := by
  intro l a pat h
  cases l with
  | nil => simp [startsWithL] at h
  | cons c cs =>
    unfold startsWithL at h
    rw [Bool.and_eq_true] at h
    have : c = a := of_decide_eq_true h.1
    exact this ▸ List.mem_cons_self c cs

theorem containsL_head_mem : ∀ {l : List Char} {a : Char} {pat : List Char},
    containsL l (a :: pat) = true → a ∈ l := by
  intro l
  induction l with
  | nil => intro a pat h; simp [containsL, startsWithL] at h
  | cons c cs ih =>
    intro a pat h
    unfold containsL at h
    rw [Bool.or_eq_true] at h
    rcases h with h | h
    · exact startsWithL_head_mem h
    · exact List.mem_cons_of_mem _ (ih h)

theorem containsL_false_of_head_not_mem {l : List Char} {a : Char} {pat : List Char}
    (h : a ∉ l) : containsL l (a :: pat) = false := by
  by_contra hc
  rw [Bool.not_eq_false] at hc
  exact h (containsL_head_mem hc)

theorem mem_pyStrip {l : List Char} {c : Char} (h : c ∈ pyStrip l) : c ∈ l := by
  unfold pyStrip at h
  rw [List.mem_reverse] at h
  have h1 := (List.dropWhile_sublist _).subset h
  rw [List.mem_reverse] at h1
  exact (List.dropWhile_sublist _).subset h1

theorem mem_removeAllPair {a b : Char} : ∀ {l : List Char} {c : Char},
    c ∈ removeAllPair a b l → c ∈ l
  | [], _, h => h
  | [_], _, h => h
  | d :: e :: rest, c, h => by
    unfold removeAllPair at h
    split at h
    · exact List.mem_cons_of_mem _ (List.mem_cons_of_mem _ (mem_removeAllPair h))
    · rcases List.mem_cons.mp h with rfl | h
      · exact List.mem_cons_self _ _
      · exact List.mem_cons_of_mem _ (mem_removeAllPair h)

/-! ## C5: graceful degradation of the parsers -/

/-- C5 counterexample: `parse_time_to_minutes` raises — a `ValueError` from
`int("A")` on `"a:b"` and an `IndexError` from `"".split()[0]` on `"9:"`,
both modelled as `none` — so parsing is not exception-free for every input
string. -/
theorem c5_counterexample_time_parse_raises :
    parse_time_to_minutes "a:b" = none ∧ parse_time_to_minutes "9:" = none := by decide

theorem no_colon_processed {s : String} (h : (':') ∉ s.data) :
    containsL (pyStrip (removeAllPair 'P' 'M' (removeAllPair 'A' 'M'
      ((pyStrip s.data).map asciiUpper)))) [':'] = false := by
  by_contra hc
  rw [Bool.not_eq_false] at hc
  have h1 := mem_removeAllPair (mem_removeAllPair (mem_pyStrip (containsL_head_mem hc)))
  rw [List.mem_map] at h1
  obtain ⟨c, hc1, hc2⟩ := h1
  exact h (asciiUpper_eq_colon hc2 ▸ mem_pyStrip hc1)

theorem processed_no_digit {s : String} (hd : ∀ c ∈ s.data, isDigitChar c = false) :
    pyIsDigit (pyStrip (removeAllPair 'P' 'M' (removeAllPair 'A' 'M'
      ((pyStrip s.data).map asciiUpper)))) = false := by
  cases ht : pyStrip (removeAllPair 'P' 'M' (removeAllPair 'A' 'M'
      ((pyStrip s.data).map asciiUpper))) with
  | nil => rfl
  | cons c cs =>
    have hcm : c ∈ pyStrip (removeAllPair 'P' 'M' (removeAllPair 'A' 'M'
        ((pyStrip s.data).map asciiUpper))) := ht ▸ List.mem_cons_self c cs
    have h1 := mem_removeAllPair (mem_removeAllPair (mem_pyStrip hcm))
    rw [List.mem_map] at h1
    obtain ⟨c0, hc1, rfl⟩ := h1
    have hc0 : isDigitChar (asciiUpper c0) = false := by
      by_contra hcc
      rw [Bool.not_eq_false] at hcc
      have h2 := isDigitChar_asciiUpper hcc
      rw [hd c0 (mem_pyStrip hc1)] at h2
      exact Bool.false_ne_true h2
    simp [pyIsDigit, List.all_cons, hc0]

theorem foldl_setAdd_skip : ∀ (l : List Char) (init : List String),
    (∀ c ∈ l, c ∉ (['M', 'T', 'W', 'F', 'S'] : List Char)) →
    l.foldl (fun result c =>
      if c ∈ (['M', 'T', 'W', 'F', 'S'] : List Char) then setAdd result (String.mk [c])
      else result) init = init := by
  intro l
  induction l with
  | nil => intro init _; rfl
  | cons c cs ih =>
    intro init h
    rw [List.foldl_cons, if_neg (h c (List.mem_cons_self c cs))]
    exact ih init (fun x hx => h x (List.mem_cons_of_mem _ hx))

theorem foldl_codeSingles_skip : ∀ (l : List Char) (init : List String),
    (∀ c ∈ l, c ∉ (['M', 'W', 'F'] : List Char)) →
    l.foldl (fun result c =>
      if c = 'M' ∧ "MO" ∉ result then result ++ ["M"]
      else if c = 'W' ∧ "WE" ∉ result then result ++ ["W"]
      else if c = 'F' ∧ "FR" ∉ result then result ++ ["F"]
      else result) init = init := by
  intro l
  induction l with
  | nil => intro init _; rfl
  | cons c cs ih =>
    intro init h
    have hc := h c (List.mem_cons_self c cs)
    have hM : ¬(c = 'M' ∧ "MO" ∉ init) := by rintro ⟨rfl, -⟩; exact hc (by decide)
    have hW : ¬(c = 'W' ∧ "WE" ∉ init) := by rintro ⟨rfl, -⟩; exact hc (by decide)
    have hF : ¬(c = 'F' ∧ "FR" ∉ init) := by rintro ⟨rfl, -⟩; exact hc (by decide)
    rw [List.foldl_cons, if_neg hM, if_neg hW, if_neg hF]
    exact ih init (fun x hx => h x (List.mem_cons_of_mem _ hx))

/-- Character lists whose uppercased characters avoid `M T W F S` fire none
of the day-set scanning steps. -/
theorem parse_days_set_nil {s : String}
    (h : ∀ c ∈ s.data, asciiUpper c ∉ (['M', 'T', 'W', 'F', 'S'] : List Char)) :
    parse_days_to_set s = [] := by
  have hmem : ∀ x ∈ (['M', 'T', 'W', 'F', 'S'] : List Char), x ∉ s.data.map asciiUpper := by
    intro x hx hmm
    rw [List.mem_map] at hmm
    obtain ⟨c, hc, rfl⟩ := hmm
    exact h c hc hx
  have hTU := @containsL_false_of_head_not_mem _ _ ['U'] (hmem 'T' (by decide))
  have hTH := @containsL_false_of_head_not_mem _ _ ['H'] (hmem 'T' (by decide))
  have hSA := @containsL_false_of_head_not_mem _ _ ['A'] (hmem 'S' (by decide))
  have hSU := @containsL_false_of_head_not_mem _ _ ['U'] (hmem 'S' (by decide))
  unfold parse_days_to_set
  simp only [List.foldl_cons, List.foldl_nil, hTU, hTH, hSA, hSU, Bool.false_eq_true,
    if_false]
  exact foldl_setAdd_skip _ _ (fun c hc hcs => by
    rw [List.mem_map] at hc
    obtain ⟨c0, hc0, rfl⟩ := hc
    exact h c0 hc0 hcs)

/-- Same for the two-letter/single-letter scans of `parse_days_to_codes`. -/
theorem parse_days_codes_nil {s : String}
    (h : ∀ c ∈ s.data, asciiUpper c ∉ (['M', 'T', 'W', 'F', 'S'] : List Char)) :
    parse_days_to_codes s = [] := by
  have hmem : ∀ x ∈ (['M', 'T', 'W', 'F', 'S'] : List Char), x ∉ s.data.map asciiUpper := by
    intro x hx hmm
    rw [List.mem_map] at hmm
    obtain ⟨c, hc, rfl⟩ := hmm
    exact h c hc hx
  have hTU := @containsL_false_of_head_not_mem _ _ ['U'] (hmem 'T' (by decide))
  have hTH := @containsL_false_of_head_not_mem _ _ ['H'] (hmem 'T' (by decide))
  have hSA := @containsL_false_of_head_not_mem _ _ ['A'] (hmem 'S' (by decide))
  have hSU := @containsL_false_of_head_not_mem _ _ ['U'] (hmem 'S' (by decide))
  have hMO := @containsL_false_of_head_not_mem _ _ ['O'] (hmem 'M' (by decide))
  have hWE := @containsL_false_of_head_not_mem _ _ ['E'] (hmem 'W' (by decide))
  have hFR := @containsL_false_of_head_not_mem _ _ ['R'] (hmem 'F' (by decide))
  unfold parse_days_to_codes
  simp only [List.foldl_cons, List.foldl_nil, hTU, hTH, hSA, hSU, hMO, hWE, hFR,
    Bool.false_eq_true, if_false]
  exact foldl_codeSingles_skip _ _ (fun c hc hcs => by
    rw [List.mem_map] at hc
    obtain ⟨c0, hc0, rfl⟩ := hc
    refine h c0 hc0 ?_
    simp only [List.mem_cons, List.not_mem_nil, or_false] at hcs ⊢
    rcases hcs with h1 | h1 | h1
    · exact Or.inl h1
    · exact Or.inr (Or.inr (Or.inl h1))
    · exact Or.inr (Or.inr (Or.inr (Or.inl h1))))

/-! ## Event expansion membership lemmas (shared by C1, C2, C3, C5) -/

theorem mapOption_forall₂ {α β : Type} {f : α → Option β} : ∀ {l : List α} {r : List β},
    mapOption f l = some r → List.Forall₂ (fun a b => f a = some b) l r := by
  intro l
  induction l with
  | nil =>
    intro r h
    obtain rfl := Option.some.inj h
    exact List.Forall₂.nil
  | cons a as ih =>
    intro r h
    unfold mapOption at h
    cases hfa : f a with
    | none =>
      rw [hfa] at h
      cases hrest : mapOption f as <;> rw [hrest] at h <;> exact absurd h (by simp)
    | some b =>
      rw [hfa] at h
      cases hrest : mapOption f as with
      | none => rw [hrest] at h; exact absurd h (by simp)
      | some bs =>
        rw [hrest] at h
        obtain rfl := Option.some.inj h
        exact List.Forall₂.cons hfa (ih hrest)

theorem forall₂_mem_right {α β : Type} {R : α → β → Prop} {l : List α} {r : List β}
    (h : List.Forall₂ R l r) {b : β} (hb : b ∈ r) : ∃ a ∈ l, R a b := by
  induction h with
  | nil => cases hb
  | cons hR htail ih =>
    rcases List.mem_cons.mp hb with rfl | hb
    · exact ⟨_, List.mem_cons_self _ _, hR⟩
    · obtain ⟨a, ha, hab⟩ := ih hb
      exact ⟨a, List.mem_cons_of_mem _ ha, hab⟩

theorem meetingToEvents_mem {course : Course} {color : String} {m : Meeting}
    {evs : List ScheduleEvent} (h : meetingToEvents course color m = some evs)
    {e : ScheduleEvent} (he : e ∈ evs) :
    e.course_id = course.id ∧ e.day ∈ parse_days_to_full_names m.days ∧
      ¬(e.start_minutes = 0 ∧ e.end_minutes = 0) := by
  unfold meetingToEvents at h
  split at h
  · obtain rfl := Option.some.inj h
    exact absurd he (List.not_mem_nil e)
  · cases hs : (if m.start_time = "" then some 0 else parse_time_to_minutes m.start_time) with
    | none =>
      rw [hs] at h
      cases hf : (if m.end_time = "" then some 0 else parse_time_to_minutes m.end_time) <;>
        rw [hf] at h <;> simp at h
    | some startM =>
      rw [hs] at h
      cases hf : (if m.end_time = "" then some 0 else parse_time_to_minutes m.end_time) with
      | none => rw [hf] at h; simp at h
      | some endM =>
        rw [hf] at h
        split at h
        · rename_i s2 e2 heq1 heq2
          obtain rfl := Option.some.inj heq1
          obtain rfl := Option.some.inj heq2
          split at h
          · obtain rfl := Option.some.inj h
            exact absurd he (List.not_mem_nil e)
          · obtain rfl := Option.some.inj h
            rw [List.mem_map] at he
            obtain ⟨day, hday, rfl⟩ := he
            refine ⟨rfl, hday, by assumption⟩
        · rename_i hcontra
          exact (hcontra startM endM rfl rfl).elim

theorem courseToEvents_mem {course : Course} {color : String} {evs : List ScheduleEvent}
    (h : courseToEvents course color = some evs) {e : ScheduleEvent} (he : e ∈ evs) :
    e.course_id = course.id ∧
      (∃ m ∈ course.schedule, e.day ∈ parse_days_to_full_names m.days) ∧
      ¬(e.start_minutes = 0 ∧ e.end_minutes = 0) := by
  unfold courseToEvents at h
  cases hm : mapOption (meetingToEvents course color) course.schedule with
  | none => rw [hm] at h; simp at h
  | some lists =>
    rw [hm] at h
    obtain rfl := Option.some.inj h
    rw [List.mem_flatten] at he
    obtain ⟨evsm, hevsm, hem⟩ := he
    obtain ⟨m, hmem, hme⟩ := forall₂_mem_right (mapOption_forall₂ hm) hevsm
    obtain ⟨h1, h2, h3⟩ := meetingToEvents_mem hme hem
    exact ⟨h1, ⟨m, hmem, h2⟩, h3⟩

/-- C5 (amended): day parsing is total and degrades to the empty day set on
strings with no day letters; time strings without a colon never raise, and
the malformed ones among them parse to 0 minutes; a time string with a
colon may raise (see the counterexample); meetings whose start and end both
parse to 0 produce no event, so they reach no conflict. -/
theorem c5_parsing_degrades_gracefully :
    (∀ s : String, (':') ∉ s.data → (parse_time_to_minutes s).isSome) ∧
    (∀ s : String, (':') ∉ s.data → (∀ c ∈ s.data, isDigitChar c = false) →
      parse_time_to_minutes s = some 0) ∧
    (∀ s : String, (∀ c ∈ s.data, asciiUpper c ∉ (['M', 'T', 'W', 'F', 'S'] : List Char)) →
      parse_days_to_set s = [] ∧ parse_days_to_full_names s = []) ∧
    (∀ (course : Course) (color : String) (evs : List ScheduleEvent),
      courseToEvents course color = some evs →
      ∀ e ∈ evs, ¬(e.start_minutes = 0 ∧ e.end_minutes = 0)) := by
  refine ⟨?_, ?_, ?_, ?_⟩
  · intro s h
    unfold parse_time_to_minutes
    simp only [no_colon_processed h, Bool.false_eq_true, if_false]
    split
    · split <;> simp
    · simp
  · intro s h hd
    unfold parse_time_to_minutes
    simp only [no_colon_processed h, processed_no_digit hd, Bool.false_eq_true, if_false]
  · intro s h
    refine ⟨parse_days_set_nil h, ?_⟩
    unfold parse_days_to_full_names
    rw [parse_days_codes_nil h]
    rfl
  · intro course color evs h e he
    exact (courseToEvents_mem h he).2.2

/-- Witness for C5's amended statement at concrete strings and a concrete
course. -/
theorem c5_degradation_witness :
    (parse_time_to_minutes "0930").isSome ∧
    parse_time_to_minutes "invalid" = some 0 ∧
    parse_days_to_set "xyz" = [] ∧
    ¬((600 : Int) = 0 ∧ (660 : Int) = 0) := by
  refine ⟨c5_parsing_degrades_gracefully.1 "0930" (by decide),
    c5_parsing_degrades_gracefully.2.1 "invalid" (by decide) (by decide),
    (c5_parsing_degrades_gracefully.2.2.1 "xyz" (by decide)).1, ?_⟩
  have h := c5_parsing_degrades_gracefully.2.2.2 cMWF1 "temp"
    [{ course_id := "X", course_code := "TEST 101", course_title := "T1",
       «section» := "A1", section_type := "Lecture", professor := "P", day := "Monday",
       start_minutes := 600, end_minutes := 660, start_time := "10:00",
       end_time := "11:00", location := "R1", color := some "temp" },
     { course_id := "X", course_code := "TEST 101", course_title := "T1",
       «section» := "A1", section_type := "Lecture", professor := "P", day := "Wednesday",
       start_minutes := 600, end_minutes := 660, start_time := "10:00",
       end_time := "11:00", location := "R1", color := some "temp" },
     { course_id := "X", course_code := "TEST 101", course_title := "T1",
       «section» := "A1", section_type := "Lecture", professor := "P", day := "Friday",
       start_minutes := 600, end_minutes := 660, start_time := "10:00",
       end_time := "11:00", location := "R1", color := some "temp" }] (by decide)
  exact h _ (List.mem_cons_self _ _)

/-! ## C8: trigram candidate retrieval -/

/-- C8 counterexample: with `min_matches = 0` the code returns only ids
sharing at least one shingle (ids enter `match_counts` only via a shared
shingle), and after re-adding an id the old text's shingles still count, so
`get_candidates` differs from the claimed characterization
(`specCandidates`, the claim's own words) at these inputs. -/
theorem c8_counterexample_get_candidates :
    (get_candidates [(0, "abc")] "xyz" 0 = ∅ ∧
      specCandidates [(0, "abc")] "xyz" 0 = {0}) ∧
    (get_candidates [(0, "abc"), (0, "xyz")] "abc" 1 = {0} ∧
      specCandidates [(0, "abc"), (0, "xyz")] "abc" 1 = ∅) := by decide

theorem postingsOf_cons (e : ℕ × String) (rest : List (ℕ × String)) (t : List Char) :
    postingsOf (e :: rest) t =
      if t ∈ extract_trigrams (normalizeText e.2) then insert e.1 (postingsOf rest t)
      else postingsOf rest t := by
  unfold postingsOf
  by_cases hp : t ∈ extract_trigrams (normalizeText e.2)
  · simp [List.filter_cons, hp, List.toFinset_cons]
  · simp [List.filter_cons, hp]

theorem postingsOf_subset_keys (entries : List (ℕ × String)) (t : List Char) :
    postingsOf entries t ⊆ trigramKeys entries := by
  intro x hx
  unfold postingsOf at hx
  unfold trigramKeys
  rw [List.mem_toFinset] at hx ⊢
  rw [List.mem_map] at hx ⊢
  obtain ⟨p, hp, rfl⟩ := hx
  exact ⟨p, List.mem_of_mem_filter hp, rfl⟩

theorem storedText_cons_self {e : ℕ × String} {rest : List (ℕ × String)}
    (h : e.1 ∉ rest.map Prod.fst) : storedText (e :: rest) e.1 = normalizeText e.2 := by
  unfold storedText
  have hnone : rest.reverse.find? (fun q => q.1 = e.1) = none := by
    rw [List.find?_eq_none]
    intro x hx
    rw [List.mem_reverse] at hx
    simp only [decide_eq_true_eq]
    intro hxe
    exact h (List.mem_map.mpr ⟨x, hx, hxe⟩)
  rw [List.reverse_cons, List.find?_append, hnone]
  simp [List.find?_cons]

theorem storedText_cons_ne {e : ℕ × String} {rest : List (ℕ × String)} {id : ℕ}
    (hne : ¬e.1 = id) (hid : id ∈ rest.map Prod.fst) :
    storedText (e :: rest) id = storedText rest id := by
  unfold storedText
  rw [List.reverse_cons, List.find?_append]
  cases hfind : rest.reverse.find? (fun q => decide (q.1 = id)) with
  | none =>
    exfalso
    rw [List.find?_eq_none] at hfind
    obtain ⟨p, hp, hpe⟩ := List.mem_map.mp hid
    exact hfind p (List.mem_reverse.mpr hp) (by simp [hpe])
  | some q => simp

theorem mem_postings_iff_stored : ∀ (entries : List (ℕ × String)),
    (entries.map Prod.fst).Nodup → ∀ {id : ℕ}, id ∈ trigramKeys entries →
    ∀ (t : List Char),
    ((id ∈ postingsOf entries t) ↔ t ∈ extract_trigrams (storedText entries id)) := by
  intro entries
  induction entries with
  | nil =>
    intro _ id hid
    simp [trigramKeys] at hid
  | cons e rest ih =>
    intro hnd id hid t
    rw [List.map_cons, List.nodup_cons] at hnd
    rw [postingsOf_cons]
    by_cases heq : e.1 = id
    · subst heq
      have hnot : e.1 ∉ postingsOf rest t := fun hmm => by
        have := postingsOf_subset_keys rest t hmm
        unfold trigramKeys at this
        rw [List.mem_toFinset] at this
        exact hnd.1 this
      rw [storedText_cons_self hnd.1]
      by_cases hp : t ∈ extract_trigrams (normalizeText e.2)
      · simp [hp]
      · simp only [hp, if_false]
        constructor
        · intro hmm; exact absurd hmm hnot
        · intro hmm; exact hmm.elim
    · have hidr : id ∈ rest.map Prod.fst := by
        unfold trigramKeys at hid
        rw [List.mem_toFinset] at hid
        rcases List.mem_map.mp hid with ⟨p, hp, hpe⟩
        rcases List.mem_cons.mp hp with rfl | hp2
        · exact absurd hpe heq
        · exact List.mem_map.mpr ⟨p, hp2, hpe⟩
      have hidr2 : id ∈ trigramKeys rest := by
        unfold trigramKeys
        rw [List.mem_toFinset]
        exact hidr
      rw [storedText_cons_ne heq hidr]
      by_cases hp : t ∈ extract_trigrams (normalizeText e.2)
      · rw [if_pos hp, Finset.mem_insert]
        constructor
        · rintro (rfl | hmm)
          · exact absurd rfl heq
          · exact (ih hnd.2 hidr2 t).mp hmm
        · intro hh
          exact Or.inr ((ih hnd.2 hidr2 t).mpr hh)
      · rw [if_neg hp]
        exact ih hnd.2 hidr2 t

theorem matchCount_eq_card_inter {entries : List (ℕ × String)}
    (hnd : (entries.map Prod.fst).Nodup) {id : ℕ} (hid : id ∈ trigramKeys entries)
    (q : Finset (List Char)) :
    matchCount entries q id = (q ∩ extract_trigrams (storedText entries id)).card := by
  unfold matchCount
  congr 1
  ext t
  simp only [Finset.mem_filter, Finset.mem_inter]
  exact and_congr_right (fun _ => mem_postings_iff_stored entries hnd hid t)

/-- C8 (amended): for an index in which every id was added once and any
`min_matches ≥ 1`, `get_candidates` returns exactly the ids whose stored
normalized text shares at least `min_matches` distinct shingles with the
normalized query; a nonempty normalized string shorter than 3 characters
contributes itself as its single shingle; and a query with no shingles
returns every indexed id. -/
theorem c8_get_candidates_characterization :
    (∀ (entries : List (ℕ × String)) (query : String) (mm : ℕ),
      (entries.map Prod.fst).Nodup → 1 ≤ mm →
      get_candidates entries query mm = specCandidates entries query mm) ∧
    (∀ l : List Char, l ≠ [] → l.length < 3 → extract_trigrams l = {l}) ∧
    (∀ (entries : List (ℕ × String)) (query : String) (mm : ℕ),
      extract_trigrams (normalizeText query) = ∅ →
      get_candidates entries query mm = trigramKeys entries) := by
  refine ⟨?_, ?_, ?_⟩
  · intro entries query mm hnd hmm
    unfold get_candidates specCandidates
    by_cases hq : extract_trigrams (normalizeText query) = ∅
    · rw [if_pos hq, if_pos hq]
    · rw [if_neg hq, if_neg hq]
      refine Finset.filter_congr ?_
      intro id hid
      rw [matchCount_eq_card_inter hnd hid]
      constructor
      · rintro ⟨-, h2⟩
        exact h2
      · intro h2
        exact ⟨le_trans hmm h2, h2⟩
  · intro l h1 h2
    unfold extract_trigrams
    rw [if_pos h2, if_neg h1]
  · intro entries query mm hq
    unfold get_candidates
    rw [if_pos hq]

/-- Witness for C8's amended statement on a concrete two-entry index. -/
theorem c8_candidates_witness :
    (trigEntries.map Prod.fst).Nodup ∧ (1 : ℕ) ≤ 1 ∧
    get_candidates trigEntries "cs 111" 1 = specCandidates trigEntries "cs 111" 1 ∧
    extract_trigrams ['c', 's'] = {['c', 's']} ∧
    get_candidates trigEntries "  " 1 = trigramKeys trigEntries := by
  refine ⟨by decide, le_refl 1,
    c8_get_candidates_characterization.1 trigEntries "cs 111" 1 (by decide) (le_refl 1),
    c8_get_candidates_characterization.2.1 ['c', 's'] (by decide) (by decide),
    c8_get_candidates_characterization.2.2 trigEntries "  " 1 (by decide)⟩

/-! ## C3: MWF overlap and disjoint-day non-conflict -/

theorem ptm_ten : parse_time_to_minutes "10:00" = some 600 := by decide

theorem ptm_eleven : parse_time_to_minutes "11:00" = some 660 := by decide

theorem ptm_ten_thirty : parse_time_to_minutes "10:30" = some 630 := by decide

theorem ptm_eleven_thirty : parse_time_to_minutes "11:30" = some 690 := by decide

theorem pdfn_mwf : parse_days_to_full_names "MWF" = ["Monday", "Wednesday", "Friday"] := by
  decide

theorem days_overlap_none {d1 d2 : String}
    (h : ∀ d ∈ parse_days_to_set d1, d ∉ parse_days_to_set d2) :
    days_overlap d1 d2 = none := by
  unfold days_overlap
  have hf : (parse_days_to_set d1).filter (fun d => d ∈ parse_days_to_set d2) = [] := by
    rw [List.filter_eq_nil_iff]
    intro d hd
    simp only [decide_eq_true_eq]
    exact h d hd
  simp [hf]

theorem checkMeetingPairs_none (c1 c2 : Course) (pairs : List (Meeting × Meeting))
    (h : ∀ p ∈ pairs, days_overlap p.1.days p.2.days = none) :
    checkMeetingPairs c1 c2 pairs = some none := by
  induction pairs with
  | nil => rfl
  | cons p rest ih =>
    obtain ⟨m1, m2⟩ := p
    unfold checkMeetingPairs
    rw [h (m1, m2) (List.mem_cons_self _ _)]
    exact ih (fun q hq => h q (List.mem_cons_of_mem _ hq))

/-- C3: the MWF 10:00–11:00 and MWF 10:30–11:30 sections conflict on
Monday, Wednesday and Friday with 30 minutes of overlap each; and two
sections with disjoint meeting day sets never produce a conflict from
either conflict detector, regardless of their times. -/
theorem c3_mwf_conflicts_and_disjoint_days :
    (∀ (c1 c2 : Course) (k1 k2 l1 l2 : String),
      c1.schedule = [⟨"MWF", "10:00", "11:00", l1⟩] →
      c2.schedule = [⟨"MWF", "10:30", "11:30", l2⟩] →
      (getAllConflicts { courses := [(k1, c1), (k2, c2)] }).map
          (fun cfs => cfs.map (fun cf => (cf.day, cf.overlap_duration))) =
        some [("Monday", 30), ("Wednesday", 30), ("Friday", 30)]) ∧
    (∀ (c1 c2 : Course) (k1 k2 : String),
      (∀ m1 ∈ c1.schedule, ∀ m2 ∈ c2.schedule,
        (∀ d ∈ parse_days_to_set m1.days, d ∉ parse_days_to_set m2.days) ∧
        (∀ d ∈ parse_days_to_full_names m1.days, d ∉ parse_days_to_full_names m2.days)) →
      detect_conflicts [c1, c2] = some [] ∧
      (∀ cfs, getAllConflicts { courses := [(k1, c1), (k2, c2)] } = some cfs → cfs = [])) := by
  constructor
  · intro c1 c2 k1 k2 l1 l2 h1 h2
    simp +decide [getAllConflicts, mapOption, courseToEvents, meetingToEvents, h1, h2,
      ptm_ten, ptm_eleven, ptm_ten_thirty, ptm_eleven_thirty, pdfn_mwf, pairConflicts,
      eventConflicts, mkScheduleConflict, ScheduleEvent.overlaps,
      ScheduleConflict.overlap_duration]
  · intro c1 c2 k1 k2 h
    have hcc : check_conflict c1 c2 = some none := by
      unfold check_conflict
      apply checkMeetingPairs_none
      intro p hp
      rw [List.mem_flatMap] at hp
      obtain ⟨m1, hm1, hp2⟩ := hp
      rw [List.mem_map] at hp2
      obtain ⟨m2, hm2, rfl⟩ := hp2
      exact days_overlap_none ((h m1 hm1 m2 hm2).1)
    constructor
    · simp [detect_conflicts, mapOption, hcc, List.reduceOption]
    · intro cfs hcfs
      unfold getAllConflicts at hcfs
      cases hev : mapOption (fun c => courseToEvents c "temp")
          (([(k1, c1), (k2, c2)] : List (String × Course)).map Prod.snd) with
      | none => rw [hev] at hcfs; exact absurd hcfs (by simp)
      | some evLists =>
        rw [hev] at hcfs
        obtain rfl := Option.some.inj hcfs
        rw [List.map_cons, List.map_cons, List.map_nil] at hev
        have hfa := mapOption_forall₂ hev
        rcases hfa with - | ⟨hev1, hfa2⟩
        rename_i ev1 rest1
        rcases hfa2 with - | ⟨hev2, hfa3⟩
        rename_i ev2 rest2
        rcases hfa3 with - | -
        have hempty : eventConflicts ev1 ev2 = [] := by
          unfold eventConflicts
          rw [List.flatten_eq_nil_iff]
          intro l hl
          rw [List.mem_map] at hl
          obtain ⟨e1, he1, rfl⟩ := hl
          rw [List.filterMap_eq_nil_iff]
          intro e2 he2
          obtain ⟨-, ⟨m1, hm1, hd1⟩, -⟩ := courseToEvents_mem hev1 he1
          obtain ⟨-, ⟨m2, hm2, hd2⟩, -⟩ := courseToEvents_mem hev2 he2
          have hne : e1.day ≠ e2.day := by
            intro hdeq
            exact (h m1 hm1 m2 hm2).2 e1.day hd1 (hdeq ▸ hd2)
          simp [ScheduleEvent.overlaps, hne]
        simp [pairConflicts, hempty]

/-- Witness for C3 at the concrete sections `cMWF1`, `cMWF2`, `cTuTh`. -/
theorem c3_witness :
    ((getAllConflicts bXY).map
        (fun cfs => cfs.map (fun cf => (cf.day, cf.overlap_duration))) =
      some [("Monday", 30), ("Wednesday", 30), ("Friday", 30)]) ∧
    detect_conflicts [cMWF1, cTuTh] = some [] ∧
    getAllConflicts bXZ = some [] := by
  refine ⟨c3_mwf_conflicts_and_disjoint_days.1 cMWF1 cMWF2 "X" "Y" "R1" "R2" rfl rfl,
    ?_, ?_⟩
  · exact (c3_mwf_conflicts_and_disjoint_days.2 cMWF1 cTuTh "X" "Z" (by decide)).1
  · have h0 : getAllConflicts bXZ = some ((getAllConflicts bXZ).getD []) := by decide
    rw [(c3_mwf_conflicts_and_disjoint_days.2 cMWF1 cTuTh "X" "Z" (by decide)).2
      ((getAllConflicts bXZ).getD []) h0] at h0
    exact h0

/-! ## C1: same-day same-column events never overlap -/

theorem eventLE_start {a b : ScheduleEvent} (h : eventLE a b = true) :
    a.start_minutes ≤ b.start_minutes := by
  unfold eventLE at h
  rw [Bool.or_eq_true, Bool.and_eq_true] at h
  rcases h with h | ⟨h1, -⟩
  · exact le_of_lt (of_decide_eq_true h)
  · exact le_of_eq (of_decide_eq_true h1)

theorem eventLE_total (a b : ScheduleEvent) : eventLE a b = true ∨ eventLE b a = true := by
  unfold eventLE
  rcases lt_trichotomy a.start_minutes b.start_minutes with h | h | h
  · left; simp [h]
  · rcases le_total a.end_minutes b.end_minutes with h2 | h2
    · left; simp [h, h2]
    · right; simp [h.symm, h2]
  · right; simp [h]

theorem eventLE_trans (a b c : ScheduleEvent) (h1 : eventLE a b = true)
    (h2 : eventLE b c = true) : eventLE a c = true := by
  unfold eventLE at *
  rw [Bool.or_eq_true, Bool.and_eq_true] at h1 h2
  rw [Bool.or_eq_true, Bool.and_eq_true]
  rcases h1 with h1 | ⟨h1a, h1b⟩ <;> rcases h2 with h2 | ⟨h2a, h2b⟩
  · exact Or.inl (decide_eq_true (lt_trans (of_decide_eq_true h1) (of_decide_eq_true h2)))
  · exact Or.inl (decide_eq_true (of_decide_eq_true h2a ▸ of_decide_eq_true h1))
  · exact Or.inl (decide_eq_true (lt_of_le_of_lt (le_of_eq (of_decide_eq_true h1a))
      (of_decide_eq_true h2)))
  · exact Or.inr ⟨decide_eq_true ((of_decide_eq_true h1a).trans (of_decide_eq_true h2a)),
      decide_eq_true (le_trans (of_decide_eq_true h1b) (of_decide_eq_true h2b))⟩

theorem mem_insertStable {α : Type} {le : α → α → Bool} {a x : α} :
    ∀ {l : List α}, x ∈ insertStable le a l ↔ x = a ∨ x ∈ l := by
  intro l
  induction l with
  | nil => simp [insertStable]
  | cons b bs ih =>
    unfold insertStable
    split
    · rw [List.mem_cons, ih, List.mem_cons]
      tauto
    · simp only [List.mem_cons]

theorem mem_pySort {α : Type} {le : α → α → Bool} {x : α} :
    ∀ {l : List α}, x ∈ pySort le l ↔ x ∈ l := by
  intro l
  induction l with
  | nil => simp [pySort]
  | cons b bs ih =>
    unfold pySort
    rw [mem_insertStable, ih, List.mem_cons]

theorem insertStable_pairwise {α : Type} {le : α → α → Bool}
    (htrans : ∀ a b c, le a b = true → le b c = true → le a c = true)
    (htot : ∀ a b, le a b = true ∨ le b a = true) (a : α) :
    ∀ {l : List α}, List.Pairwise (fun x y => le x y = true) l →
      List.Pairwise (fun x y => le x y = true) (insertStable le a l) := by
  intro l
  induction l with
  | nil => intro _; exact List.pairwise_singleton _ _
  | cons b bs ih =>
    intro hs
    rw [List.pairwise_cons] at hs
    obtain ⟨hb, hbs⟩ := hs
    unfold insertStable
    cases hab : le a b with
    | true =>
      rw [if_neg (by simp [hab])]
      rw [List.pairwise_cons]
      constructor
      · intro y hy
        rcases List.mem_cons.mp hy with rfl | hy
        · exact hab
        · exact htrans a b y hab (hb y hy)
      · rw [List.pairwise_cons]
        exact ⟨hb, hbs⟩
    | false =>
      have hba : le b a = true := by
        rcases htot a b with h | h
        · rw [h] at hab; exact absurd hab (by simp)
        · exact h
      rw [if_pos (by simp [hab, hba])]
      rw [List.pairwise_cons]
      constructor
      · intro y hy
        rcases mem_insertStable.mp hy with rfl | hy
        · exact hba
        · exact hb y hy
      · exact ih hbs

theorem pySort_pairwise {α : Type} {le : α → α → Bool}
    (htrans : ∀ a b c, le a b = true → le b c = true → le a c = true)
    (htot : ∀ a b, le a b = true ∨ le b a = true) :
    ∀ (l : List α), List.Pairwise (fun x y => le x y = true) (pySort le l) := by
  intro l
  induction l with
  | nil => exact List.Pairwise.nil
  | cons b bs ih => exact insertStable_pairwise htrans htot b ih

theorem assignStep_some_fst {cols : List Int} {out : List ScheduleEvent} {e : ScheduleEvent}
    {i : ℕ} (h : cols.findIdx? (fun colEnd => colEnd ≤ e.start_minutes) = some i) :
    (assignStep (cols, out) e).1 = cols.set i e.end_minutes := by
  simp [assignStep, h]

theorem assignStep_some_snd {cols : List Int} {out : List ScheduleEvent} {e : ScheduleEvent}
    {i : ℕ} (h : cols.findIdx? (fun colEnd => colEnd ≤ e.start_minutes) = some i) :
    (assignStep (cols, out) e).2 = out ++ [{ e with column := i }] := by
  simp [assignStep, h]

theorem assignStep_none_fst {cols : List Int} {out : List ScheduleEvent} {e : ScheduleEvent}
    (h : cols.findIdx? (fun colEnd => colEnd ≤ e.start_minutes) = none) :
    (assignStep (cols, out) e).1 = cols ++ [e.end_minutes] := by
  simp [assignStep, h]

theorem assignStep_none_snd {cols : List Int} {out : List ScheduleEvent} {e : ScheduleEvent}
    (h : cols.findIdx? (fun colEnd => colEnd ≤ e.start_minutes) = none) :
    (assignStep (cols, out) e).2 = out ++ [{ e with column := cols.length }] := by
  simp [assignStep, h]

theorem assignStep_out (cols : List Int) (out : List ScheduleEvent) (e : ScheduleEvent) :
    ∃ c, (assignStep (cols, out) e).2 = out ++ [{ e with column := c }] := by
  cases hidx : cols.findIdx? (fun colEnd => colEnd ≤ e.start_minutes) with
  | some i => exact ⟨i, assignStep_some_snd hidx⟩
  | none => exact ⟨cols.length, assignStep_none_snd hidx⟩

theorem assignStep_inv (cols : List Int) (out : List ScheduleEvent) (e : ScheduleEvent)
    (hinv : colInv cols out) (hmono : ∀ x ∈ out, x.start_minutes ≤ e.start_minutes) :
    colInv (assignStep (cols, out) e).1 (assignStep (cols, out) e).2 := by
  obtain ⟨h1, h2, h3⟩ := hinv
  cases hidx : cols.findIdx? (fun colEnd => colEnd ≤ e.start_minutes) with
  | some i =>
    rw [assignStep_some_fst hidx, assignStep_some_snd hidx]
    rw [List.findIdx?_eq_some_iff_getElem] at hidx
    obtain ⟨hilt, hpi, -⟩ := hidx
    have hcole : cols[i] ≤ e.start_minutes := of_decide_eq_true hpi
    refine ⟨?_, ?_, ?_⟩
    · intro x hx
      rw [List.length_set]
      rcases List.mem_append.mp hx with hx | hx
      · exact h1 x hx
      · rw [List.mem_singleton] at hx
        subst hx
        simpa using hilt
    · intro j hj
      rw [List.length_set] at hj
      by_cases hji : j = i
      · subst hji
        obtain ⟨l1, w, hfw, -⟩ := h2 j hj
        refine ⟨l1 ++ [w], { e with column := j }, ?_, ?_⟩
        · rw [List.filter_append, hfw]
          congr 1
          simp
        · simp [List.getElem?_set_self, hj]
      · obtain ⟨l1, w, hfw, hcw⟩ := h2 j hj
        refine ⟨l1, w, ?_, ?_⟩
        · rw [List.filter_append, hfw]
          have : ({ e with column := i } : ScheduleEvent).column ≠ j := fun hc => hji (hc ▸ rfl)
          simp [this]
        · rw [List.getElem?_set_ne (fun h => hji h.symm)]
          exact hcw
    · rw [List.pairwise_append]
      refine ⟨h3, List.pairwise_singleton _ _, ?_⟩
      intro a ha b hb
      rw [List.mem_singleton] at hb
      subst hb
      intro hcol
      obtain ⟨l1, w, hfw, hcw⟩ := h2 i hilt
      have hweq : cols[i] = w.end_minutes := by
        rw [List.getElem?_eq_getElem hilt] at hcw
        exact Option.some.inj hcw
      have hwend : w.end_minutes ≤ e.start_minutes := hweq ▸ hcole
      have hwf : w ∈ out.filter (fun x => x.column = i) := by
        rw [hfw]
        exact List.mem_append_right _ (List.mem_singleton_self w)
      have hwcol : w.column = i := of_decide_eq_true (List.mem_filter.mp hwf).2
      have hwout : w ∈ out := (List.mem_filter.mp hwf).1
      have hacol : a.column = i := hcol
      have hafl : a ∈ out.filter (fun x => x.column = i) :=
        List.mem_filter.mpr ⟨ha, decide_eq_true hacol⟩
      rw [hfw] at hafl
      rcases List.mem_append.mp hafl with hal | hal
      · have hpf : List.Pairwise
            (fun a b => a.column = b.column → a.end_minutes ≤ b.start_minutes)
            (l1 ++ [w]) := hfw ▸ h3.sublist (List.filter_sublist _)
        have hPaw := (List.pairwise_append.mp hpf).2.2 a hal w (List.mem_singleton_self w)
        have haw : a.end_minutes ≤ w.start_minutes := hPaw (by rw [hacol, hwcol])
        exact le_trans haw (hmono w hwout)
      · rw [List.mem_singleton] at hal
        subst hal
        exact hwend
  | none =>
    rw [assignStep_none_fst hidx, assignStep_none_snd hidx]
    rw [List.findIdx?_eq_none_iff] at hidx
    refine ⟨?_, ?_, ?_⟩
    · intro x hx
      rw [List.length_append, List.length_singleton]
      rcases List.mem_append.mp hx with hx | hx
      · exact Nat.lt_succ_of_lt (h1 x hx)
      · rw [List.mem_singleton] at hx
        subst hx
        exact Nat.lt_succ_self _
    · intro j hj
      rw [List.length_append, List.length_singleton] at hj
      by_cases hji : j = cols.length
      · subst hji
        have hfo : out.filter (fun x => x.column = cols.length) = [] := by
          rw [List.filter_eq_nil_iff]
          intro x hx
          simp only [decide_eq_true_eq]
          exact Nat.ne_of_lt (h1 x hx)
        refine ⟨[], { e with column := cols.length }, ?_, ?_⟩
        · rw [List.filter_append, hfo]
          simp
        · rw [List.getElem?_append_right (le_refl _)]
          simp
      · have hjlt : j < cols.length := by omega
        obtain ⟨l1, w, hfw, hcw⟩ := h2 j hjlt
        refine ⟨l1, w, ?_, ?_⟩
        · rw [List.filter_append, hfw]
          have : ({ e with column := cols.length } : ScheduleEvent).column ≠ j :=
            fun hc => hji (hc ▸ rfl)
          simp [this]
        · rw [List.getElem?_append_left hjlt]
          exact hcw
    · rw [List.pairwise_append]
      refine ⟨h3, List.pairwise_singleton _ _, ?_⟩
      intro a ha b hb
      rw [List.mem_singleton] at hb
      subst hb
      intro hcol
      exact absurd hcol (Nat.ne_of_lt (h1 a ha))

theorem foldl_assignStep_inv : ∀ (l : List ScheduleEvent) (cols : List Int)
    (out : List ScheduleEvent),
    List.Pairwise (fun a b => eventLE a b = true) l →
    (∀ x ∈ out, ∀ e ∈ l, x.start_minutes ≤ e.start_minutes) →
    colInv cols out →
    colInv (l.foldl assignStep (cols, out)).1 (l.foldl assignStep (cols, out)).2 := by
  intro l
  induction l with
  | nil => intro cols out _ _ hinv; exact hinv
  | cons e l ih =>
    intro cols out hsort hmono hinv
    rw [List.foldl_cons]
    rw [List.pairwise_cons] at hsort
    have hstep := assignStep_inv cols out e hinv
      (fun x hx => hmono x hx e (List.mem_cons_self _ _))
    obtain ⟨c, hc⟩ := assignStep_out cols out e
    have hmono2 : ∀ x ∈ (assignStep (cols, out) e).2, ∀ e2 ∈ l,
        x.start_minutes ≤ e2.start_minutes := by
      intro x hx e2 he2
      rw [hc] at hx
      rcases List.mem_append.mp hx with hx | hx
      · exact hmono x hx e2 (List.mem_cons_of_mem _ he2)
      · rw [List.mem_singleton] at hx
        subst hx
        exact eventLE_start (hsort.1 e2 he2)
    exact ih (assignStep (cols, out) e).1 (assignStep (cols, out) e).2 hsort.2 hmono2 hstep

theorem foldl_assignStep_mem : ∀ (l : List ScheduleEvent) (cols : List Int)
    (out : List ScheduleEvent) {x : ScheduleEvent},
    x ∈ (l.foldl assignStep (cols, out)).2 →
    x ∈ out ∨ ∃ x0 ∈ l, x.day = x0.day := by
  intro l
  induction l with
  | nil => intro cols out x hx; exact Or.inl hx
  | cons e l ih =>
    intro cols out x hx
    rw [List.foldl_cons] at hx
    obtain ⟨c, hc⟩ := assignStep_out cols out e
    rcases ih (assignStep (cols, out) e).1 (assignStep (cols, out) e).2 hx with h | ⟨x0, hx0, hd⟩
    · rw [hc] at h
      rcases List.mem_append.mp h with h | h
      · exact Or.inl h
      · rw [List.mem_singleton] at h
        subst h
        exact Or.inr ⟨e, List.mem_cons_self _ _, rfl⟩
    · exact Or.inr ⟨x0, List.mem_cons_of_mem _ hx0, hd⟩

theorem assignColumns_pairwise (g : List ScheduleEvent) :
    List.Pairwise (fun a b => a.column = b.column → a.end_minutes ≤ b.start_minutes)
      (assignColumns g) := by
  unfold assignColumns
  rw [List.pairwise_map]
  have hinv := foldl_assignStep_inv (pySort eventLE g) [] []
    (pySort_pairwise eventLE_trans eventLE_total g)
    (by intro x hx; exact absurd hx (List.not_mem_nil x))
    ⟨by intro x hx; exact absurd hx (List.not_mem_nil x),
     by intro i hi; exact absurd hi (Nat.not_lt_zero i),
     List.Pairwise.nil⟩
  exact hinv.2.2

theorem assignColumns_day {g : List ScheduleEvent} {x : ScheduleEvent}
    (hx : x ∈ assignColumns g) : ∃ x0 ∈ g, x.day = x0.day := by
  unfold assignColumns at hx
  rw [List.mem_map] at hx
  obtain ⟨y, hy, rfl⟩ := hx
  rcases foldl_assignStep_mem (pySort eventLE g) [] [] hy with h | ⟨x0, hx0, hd⟩
  · exact absurd h (List.not_mem_nil y)
  · exact ⟨x0, mem_pySort.mp hx0, hd⟩

theorem overlaps_false_of_le {a b : ScheduleEvent} (h : a.end_minutes ≤ b.start_minutes) :
    a.overlaps b = false := by
  unfold ScheduleEvent.overlaps
  split
  · rfl
  · simp only [decide_eq_false_iff_not]
    rintro ⟨-, h2⟩
    omega

/-- C1: in the list returned by `get_events`, no two distinct events that
share a day and an assigned column overlap in time. -/
theorem c1_same_column_events_disjoint (b : ScheduleBuilder) (evs : List ScheduleEvent)
    (h : getEvents b = some evs) :
    List.Pairwise (fun e1 e2 => e1.day = e2.day → e1.column = e2.column →
      e1.overlaps e2 = false) evs := by
  simp only [getEvents] at h
  cases hev : mapOption (fun q => courseToEvents q.1 q.2)
      (b.courses.enum.map fun p =>
        (p.2.2, COLORS.getD ((b.color_index + p.1) % COLORS.length) "")) with
  | none => rw [hev] at h; exact absurd h (by simp)
  | some eventLists =>
    rw [hev] at h
    obtain rfl := Option.some.inj h
    rw [List.pairwise_flatten]
    constructor
    · intro l hl
      rw [List.mem_map] at hl
      obtain ⟨g, -, rfl⟩ := hl
      exact (assignColumns_pairwise g).imp
        (fun hPab => fun _ hcol => overlaps_false_of_le (hPab hcol))
    · rw [List.pairwise_map]
      have hDO : List.Pairwise (fun d1 d2 : String => d1 ≠ d2) DAY_ORDER := by decide
      have hgroups : List.Pairwise (fun g1 g2 : List ScheduleEvent =>
          ∀ x ∈ g1, ∀ y ∈ g2, x.day ≠ y.day)
          (DAY_ORDER.map (fun d => eventLists.flatten.filter (fun e => e.day = d))) := by
        rw [List.pairwise_map]
        refine hDO.imp ?_
        intro d1 d2 hne x hx y hy
        have hx2 : x.day = d1 := of_decide_eq_true (List.mem_filter.mp hx).2
        have hy2 : y.day = d2 := of_decide_eq_true (List.mem_filter.mp hy).2
        rw [hx2, hy2]
        exact hne
      have hfiltered : List.Pairwise (fun g1 g2 : List ScheduleEvent =>
          ∀ x ∈ g1, ∀ y ∈ g2, x.day ≠ y.day)
          ((DAY_ORDER.map (fun d => eventLists.flatten.filter (fun e => e.day = d))).filter
            (fun l => l ≠ [])) := hgroups.sublist (List.filter_sublist _)
      refine hfiltered.imp ?_
      intro g1 g2 hgg x hx y hy hday _
      obtain ⟨x0, hx0, hxd⟩ := assignColumns_day hx
      obtain ⟨y0, hy0, hyd⟩ := assignColumns_day hy
      exact absurd (hxd ▸ hyd ▸ hday) (hgg x0 hx0 y0 hy0)

/-- Witness for C1 at the two-course schedule `bXY`. -/
theorem c1_events_witness :
    getEvents bXY = some evsXY ∧
      List.Pairwise (fun e1 e2 => e1.day = e2.day → e1.column = e2.column →
        e1.overlaps e2 = false) evsXY := by
  have hev : getEvents bXY = some evsXY := by decide
  exact ⟨hev, c1_same_column_events_disjoint bXY evsXY hev⟩

/-! ## C2: distinctness and orientation of reported conflicts -/

theorem checkMeetingPairs_ids {c1 c2 : Course} {cf : Conflict} :
    ∀ {l : List (Meeting × Meeting)}, checkMeetingPairs c1 c2 l = some (some cf) →
      cf.course1_id = c1.id ∧ cf.course2_id = c2.id := by
  intro l
  induction l with
  | nil =>
    intro h
    exact Option.noConfusion (Option.some.inj h)
  | cons p rest ih =>
    intro h
    obtain ⟨m1, m2⟩ := p
    unfold checkMeetingPairs at h
    cases hd : days_overlap m1.days m2.days with
    | none =>
      rw [hd] at h
      exact ih h
    | some d =>
      rw [hd] at h
      cases ht : times_overlap m1 m2 with
      | none =>
        rw [ht] at h
        exact Option.noConfusion h
      | some tb =>
        rw [ht] at h
        have h2 : (if tb then some (some
            ({ course1_id := c1.id, course2_id := c2.id, course1_code := c1.code,
               course2_code := c2.code, overlap_day := d,
               overlap_time := m1.start_time ++ "-" ++ m1.end_time } : Conflict))
          else checkMeetingPairs c1 c2 rest) = some (some cf) := h
        cases tb with
        | false =>
          rw [if_neg (by simp)] at h2
          exact ih h2
        | true =>
          rw [if_pos rfl] at h2
          obtain rfl := Option.some.inj (Option.some.inj h2)
          exact ⟨rfl, rfl⟩

theorem check_conflict_ids {c1 c2 : Course} {cf : Conflict}
    (h : check_conflict c1 c2 = some (some cf)) :
    cf.course1_id = c1.id ∧ cf.course2_id = c2.id :=
  checkMeetingPairs_ids h

theorem forall₂_pairwise {α β : Type} {R : α → β → Prop} {P : α → α → Prop}
    {Q : β → β → Prop} {l : List α} {r : List β} (h : List.Forall₂ R l r)
    (hP : List.Pairwise P l)
    (himp : ∀ a a' b b', R a b → R a' b' → P a a' → Q b b') : List.Pairwise Q r := by
  induction h with
  | nil => exact List.Pairwise.nil
  | cons hR htail ih =>
    rw [List.pairwise_cons] at hP
    rw [List.pairwise_cons]
    refine ⟨?_, ih hP.2⟩
    intro b' hb'
    obtain ⟨a', ha', hab'⟩ := forall₂_mem_right htail hb'
    exact himp _ _ _ _ hR hab' (hP.1 a' ha')

theorem pairwise_reduceOption {α : Type} {Q : α → α → Prop} :
    ∀ {l : List (Option α)},
      List.Pairwise (fun oa ob => ∀ x y, oa = some x → ob = some y → Q x y) l →
      List.Pairwise Q l.reduceOption := by
  intro l
  induction l with
  | nil =>
    intro _
    exact List.Pairwise.nil
  | cons o os ih =>
    intro h
    rw [List.pairwise_cons] at h
    cases o with
    | none =>
      rw [List.reduceOption_cons_of_none]
      exact ih h.2
    | some a =>
      rw [List.reduceOption_cons_of_some, List.pairwise_cons]
      refine ⟨?_, ih h.2⟩
      intro b hb
      exact h.1 (some b) (List.reduceOption_mem_iff.mp hb) a b rfl rfl

theorem mem_eventConflicts {evs1 evs2 : List ScheduleEvent} {cf : ScheduleConflict}
    (h : cf ∈ eventConflicts evs1 evs2) : cf.event1 ∈ evs1 ∧ cf.event2 ∈ evs2 := by
  unfold eventConflicts at h
  rw [List.mem_flatten] at h
  obtain ⟨row, hrow, hcf⟩ := h
  rw [List.mem_map] at hrow
  obtain ⟨e1, he1, rfl⟩ := hrow
  rw [List.mem_filterMap] at hcf
  obtain ⟨e2, he2, hsome⟩ := hcf
  split at hsome
  · obtain rfl := Option.some.inj hsome
    exact ⟨he1, he2⟩
  · exact Option.noConfusion hsome

theorem pairConflicts_mem {cf : ScheduleConflict} :
    ∀ {L : List (List ScheduleEvent)}, cf ∈ pairConflicts L →
      (∃ A ∈ L, cf.event1 ∈ A) ∧ (∃ B ∈ L, cf.event2 ∈ B) := by
  intro L
  induction L with
  | nil =>
    intro h
    exact absurd h (List.not_mem_nil cf)
  | cons evs1 rest ih =>
    intro h
    unfold pairConflicts at h
    rcases List.mem_append.mp h with h | h
    · rw [List.mem_flatten] at h
      obtain ⟨row, hrow, hcf⟩ := h
      rw [List.mem_map] at hrow
      obtain ⟨evs2, hevs2, rfl⟩ := hrow
      obtain ⟨h1, h2⟩ := mem_eventConflicts hcf
      exact ⟨⟨evs1, List.mem_cons_self _ _, h1⟩,
        ⟨evs2, List.mem_cons_of_mem _ hevs2, h2⟩⟩
    · obtain ⟨⟨A, hA, h1⟩, ⟨B, hB, h2⟩⟩ := ih h
      exact ⟨⟨A, List.mem_cons_of_mem _ hA, h1⟩, ⟨B, List.mem_cons_of_mem _ hB, h2⟩⟩

theorem pairConflicts_ids :
    ∀ {L : List (List ScheduleEvent)},
      List.Pairwise (fun A B => ∀ x ∈ A, ∀ y ∈ B, x.course_id ≠ y.course_id) L →
      (∀ cf ∈ pairConflicts L, cf.event1.course_id ≠ cf.event2.course_id) ∧
      List.Pairwise (fun cf cf' => cf.event1.course_id ≠ cf'.event2.course_id)
        (pairConflicts L) := by
  intro L
  induction L with
  | nil =>
    intro _
    exact ⟨fun cf hcf => absurd hcf (List.not_mem_nil cf), List.Pairwise.nil⟩
  | cons evs1 rest ih =>
    intro hD
    rw [List.pairwise_cons] at hD
    obtain ⟨ihm, ihp⟩ := ih hD.2
    have hhead : ∀ cf ∈ (rest.map (fun evs2 => eventConflicts evs1 evs2)).flatten,
        cf.event1 ∈ evs1 ∧ ∃ B ∈ rest, cf.event2 ∈ B := by
      intro cf hcf
      rw [List.mem_flatten] at hcf
      obtain ⟨row, hrow, hcf⟩ := hcf
      rw [List.mem_map] at hrow
      obtain ⟨evs2, hevs2, rfl⟩ := hrow
      obtain ⟨h1, h2⟩ := mem_eventConflicts hcf
      exact ⟨h1, evs2, hevs2, h2⟩
    unfold pairConflicts
    constructor
    · intro cf hcf
      rcases List.mem_append.mp hcf with h | h
      · obtain ⟨h1, B, hB, h2⟩ := hhead cf h
        exact hD.1 B hB cf.event1 h1 cf.event2 h2
      · exact ihm cf h
    · rw [List.pairwise_append]
      refine ⟨?_, ihp, ?_⟩
      · refine List.pairwise_of_forall_mem_list ?_
        intro cf hcf cf2 hcf2
        obtain ⟨h1, -⟩ := hhead cf hcf
        obtain ⟨-, B2, hB2, h2⟩ := hhead cf2 hcf2
        exact hD.1 B2 hB2 cf.event1 h1 cf2.event2 h2
      · intro cf hcf cf2 hcf2
        obtain ⟨h1, -⟩ := hhead cf hcf
        obtain ⟨B2, hB2, h2⟩ := (pairConflicts_mem hcf2).2
        exact hD.1 B2 hB2 cf.event1 h1 cf2.event2 h2

theorem detect_conflicts_strong :
    ∀ {courses : List Course},
      List.Pairwise (fun c c' : Course => c.id ≠ c'.id) courses →
      ∀ {cs : List Conflict}, detect_conflicts courses = some cs →
      (∀ cf ∈ cs, (∃ c ∈ courses, cf.course1_id = c.id) ∧
        (∃ c ∈ courses, cf.course2_id = c.id) ∧ cf.course1_id ≠ cf.course2_id) ∧
      List.Pairwise (fun cf cf' =>
        ¬((cf.course1_id = cf'.course1_id ∧ cf.course2_id = cf'.course2_id) ∨
          (cf.course1_id = cf'.course2_id ∧ cf.course2_id = cf'.course1_id))) cs := by
  intro courses
  induction courses with
  | nil =>
    intro _ cs h
    obtain rfl := Option.some.inj h
    exact ⟨fun cf hcf => absurd hcf (List.not_mem_nil cf), List.Pairwise.nil⟩
  | cons c rest ih =>
    intro hnd cs h
    rw [List.pairwise_cons] at hnd
    unfold detect_conflicts at h
    cases hrow : mapOption (check_conflict c) rest with
    | none =>
      cases htail : detect_conflicts rest with
      | none =>
        rw [hrow, htail] at h
        exact Option.noConfusion h
      | some tail =>
        rw [hrow, htail] at h
        exact Option.noConfusion h
    | some headRow =>
      cases htail : detect_conflicts rest with
      | none =>
        rw [hrow, htail] at h
        exact Option.noConfusion h
      | some tail =>
        rw [hrow, htail] at h
        obtain rfl := Option.some.inj h
        have hF := mapOption_forall₂ hrow
        obtain ⟨ihm, ihp⟩ := ih hnd.2 htail
        have hheadmem : ∀ cf ∈ headRow.reduceOption,
            cf.course1_id = c.id ∧ ∃ c2 ∈ rest, cf.course2_id = c2.id := by
          intro cf hcf
          obtain ⟨c2, hc2, hchk⟩ :=
            forall₂_mem_right hF (List.reduceOption_mem_iff.mp hcf)
          obtain ⟨h1, h2⟩ := check_conflict_ids hchk
          exact ⟨h1, c2, hc2, h2⟩
        constructor
        · intro cf hcf
          rcases List.mem_append.mp hcf with hm | hm
          · obtain ⟨h1, c2, hc2, h2⟩ := hheadmem cf hm
            refine ⟨⟨c, List.mem_cons_self _ _, h1⟩,
              ⟨c2, List.mem_cons_of_mem _ hc2, h2⟩, ?_⟩
            rw [h1, h2]
            exact hnd.1 c2 hc2
          · obtain ⟨⟨a, ha, h1⟩, ⟨b2, hb2, h2⟩, hne⟩ := ihm cf hm
            exact ⟨⟨a, List.mem_cons_of_mem _ ha, h1⟩,
              ⟨b2, List.mem_cons_of_mem _ hb2, h2⟩, hne⟩
        · rw [List.pairwise_append]
          refine ⟨?_, ihp, ?_⟩
          · have hQ : List.Pairwise
                (fun oa ob : Option Conflict => ∀ x y, oa = some x → ob = some y →
                  x.course2_id ≠ y.course2_id) headRow := by
              refine forall₂_pairwise hF hnd.2 ?_
              intro c2 c2' oc oc' hc hc' hne x y hx hy
              subst hx
              subst hy
              rw [(check_conflict_ids hc).2, (check_conflict_ids hc').2]
              exact hne
            refine (pairwise_reduceOption hQ).imp_of_mem ?_
            intro x y hx hy hne2
            obtain ⟨hx1, cx2, hcx2, hx2⟩ := hheadmem x hx
            obtain ⟨hy1, cy2, hcy2, hy2⟩ := hheadmem y hy
            rintro (⟨-, h22⟩ | ⟨h12, -⟩)
            · exact hne2 h22
            · exact hnd.1 cy2 hcy2 (hx1.symm.trans (h12.trans hy2))
          · intro x hx y hy
            obtain ⟨hx1, cx2, hcx2, hx2⟩ := hheadmem x hx
            obtain ⟨⟨a, ha, hy1⟩, ⟨b2, hb2, hy2⟩, -⟩ := ihm y hy
            rintro (⟨h11, -⟩ | ⟨h12, -⟩)
            · exact hnd.1 a ha (hx1.symm.trans (h11.trans hy1))
            · exact hnd.1 b2 hb2 (hx1.symm.trans (h12.trans hy2))

/-- C2 counterexample: re-adding the already-stored section `X` makes
`add_course` report `X` as conflicting with itself (three times, once per
shared meeting day), and `get_all_conflicts` on the two overlapping MWF
sections reports the same unordered section pair `(X, Y)` three times, not
at most once. -/
theorem c2_counterexample_self_and_repeated_pair :
    ((addCourse bX cMWF1).map (fun p =>
        p.1.map (fun cf => (cf.event1.course_id, cf.event2.course_id))) =
      some [("X", "X"), ("X", "X"), ("X", "X")]) ∧
    ((getAllConflicts bXY).map (fun cfs =>
        cfs.map (fun cf => (cf.event1.course_id, cf.event2.course_id))) =
      some [("X", "Y"), ("X", "Y"), ("X", "Y")]) := by decide

/-- C2 (corrected): when the listed (resp. stored) section ids are distinct
and `add_course` receives an id not already stored, every reported conflict
is between two distinct sections; `CourseIndex.detect_conflicts` reports
each unordered pair at most once; and `get_all_conflicts` and `add_course`
never report a pair in both orientations (though they may repeat the same
oriented pair once per overlapping event pair). -/
theorem c2_conflicts_distinct_and_oriented
    (courses : List Course)
    (hnd : List.Pairwise (fun c c' : Course => c.id ≠ c'.id) courses)
    (cs : List Conflict) (h : detect_conflicts courses = some cs)
    (b : ScheduleBuilder) (hb : ∀ p ∈ b.courses, Course.id p.2 = p.1)
    (hbnd : List.Pairwise (fun p q : String × Course => p.1 ≠ q.1) b.courses)
    (gcs : List ScheduleConflict) (hg : getAllConflicts b = some gcs)
    (nc : Course) (hnc : ∀ p ∈ b.courses, nc.id ≠ p.1)
    (acs : List ScheduleConflict) (b2 : ScheduleBuilder)
    (ha : addCourse b nc = some (acs, b2)) :
    ((∀ cf ∈ cs, cf.course1_id ≠ cf.course2_id) ∧
      List.Pairwise (fun cf cf' =>
        ¬((cf.course1_id = cf'.course1_id ∧ cf.course2_id = cf'.course2_id) ∨
          (cf.course1_id = cf'.course2_id ∧ cf.course2_id = cf'.course1_id))) cs) ∧
    ((∀ cf ∈ gcs, cf.event1.course_id ≠ cf.event2.course_id) ∧
      List.Pairwise (fun cf cf' =>
        ¬(cf.event1.course_id = cf'.event2.course_id ∧
          cf.event2.course_id = cf'.event1.course_id)) gcs) ∧
    (∀ cf ∈ acs, cf.event1.course_id = nc.id ∧ cf.event2.course_id ≠ nc.id) := by
  obtain ⟨hm, hp⟩ := detect_conflicts_strong hnd h
  have hpc : List.Pairwise (fun c c' : Course => c.id ≠ c'.id)
      (b.courses.map Prod.snd) := by
    rw [List.pairwise_map]
    refine hbnd.imp_of_mem ?_
    intro p q hpmem hqmem hne
    rw [hb p hpmem, hb q hqmem]
    exact hne
  refine ⟨⟨fun cf hcf => (hm cf hcf).2.2, hp⟩, ?_, ?_⟩
  · unfold getAllConflicts at hg
    cases hev : mapOption (fun c => courseToEvents c "temp") (b.courses.map Prod.snd) with
    | none =>
      rw [hev] at hg
      exact Option.noConfusion hg
    | some evLists =>
      rw [hev] at hg
      obtain rfl := Option.some.inj hg
      have hDL : List.Pairwise
          (fun A B => ∀ x ∈ A, ∀ y ∈ B, x.course_id ≠ y.course_id) evLists := by
        refine forall₂_pairwise (mapOption_forall₂ hev) hpc ?_
        intro cA cB A B hA hB hne x hx y hy
        rw [(courseToEvents_mem hA hx).1, (courseToEvents_mem hB hy).1]
        exact hne
      obtain ⟨gm, gp⟩ := pairConflicts_ids hDL
      refine ⟨gm, gp.imp ?_⟩
      intro cf cf2 hne hcontra
      exact hne hcontra.1
  · unfold addCourse at ha
    cases hdw : detectConflictsWith b nc with
    | none =>
      rw [hdw] at ha
      exact Option.noConfusion ha
    | some v =>
      rw [hdw] at ha
      obtain ⟨hv, -⟩ := Prod.mk.injEq .. |>.mp (Option.some.inj ha)
      subst hv
      unfold detectConflictsWith at hdw
      cases hne2 : courseToEvents nc "temp" with
      | none =>
        rw [hne2] at hdw
        exact Option.noConfusion hdw
      | some new_events =>
        cases hev2 : mapOption (fun c => courseToEvents c "temp")
            (b.courses.map Prod.snd) with
        | none =>
          rw [hne2, hev2] at hdw
          exact Option.noConfusion hdw
        | some evLists =>
          rw [hne2, hev2] at hdw
          obtain rfl := Option.some.inj hdw
          intro cf hcf
          rw [List.mem_flatten] at hcf
          obtain ⟨row, hrow, hcf⟩ := hcf
          rw [List.mem_map] at hrow
          obtain ⟨B, hB, rfl⟩ := hrow
          obtain ⟨h1, h2⟩ := mem_eventConflicts hcf
          obtain ⟨cB, hcB, hchk⟩ := forall₂_mem_right (mapOption_forall₂ hev2) hB
          rw [List.mem_map] at hcB
          obtain ⟨pB, hpB, rfl⟩ := hcB
          refine ⟨(courseToEvents_mem hne2 h1).1, ?_⟩
          rw [(courseToEvents_mem hchk h2).1, hb pB hpB]
          exact (hnc pB hpB).symm

/-- Witness for the corrected C2 at concrete schedules: the two-course MWF
conflict list, the builder `bXY`, and adding the day-disjoint section `Z`. -/
theorem c2_witness :
    detect_conflicts [cMWF1, cMWF2] = some c2dcs ∧
    getAllConflicts bXY = some c2gcs ∧
    addCourse bXY cTuTh = some (c2acs, c2b2) ∧
    (∀ cf ∈ c2dcs, cf.course1_id ≠ cf.course2_id) ∧
    (∀ cf ∈ c2gcs, cf.event1.course_id ≠ cf.event2.course_id) ∧
    (∀ cf ∈ c2acs, cf.event1.course_id = cTuTh.id ∧ cf.event2.course_id ≠ cTuTh.id) := by
  have h1 : detect_conflicts [cMWF1, cMWF2] = some c2dcs := by decide
  have h2 : getAllConflicts bXY = some c2gcs := by decide
  have h3 : addCourse bXY cTuTh = some (c2acs, c2b2) := by decide
  obtain ⟨⟨d1, -⟩, ⟨g1, -⟩, a1⟩ := c2_conflicts_distinct_and_oriented
    [cMWF1, cMWF2] (by decide) c2dcs h1 bXY (by decide) (by decide) c2gcs h2
    cTuTh (by decide) c2acs c2b2 h3
  exact ⟨h1, h2, h3, d1, g1, a1⟩

end ScarletPlanner
